import Mathlib

/-!
# Verification of the node-manager search engine

Shallow embedding of the three node-tree-manager variants of the repository:

* `NodeVar`  — `src/node_manager_new.hpp`   (namespace `node`, single-threaded,
  pruned flag written over the state storage, unconditional lineage prune)
* `NoirVar`  — `src/include/node_manager.hpp` (namespace `noir`, single-threaded,
  explicit `pruned` flag, `prune_depth_limit`, global transposition table)
* `AiVar`    — `src/node_manager.hpp`       (namespace `ai`, parallel variant,
  sibling-linked tree, per-lane allocators, batched task dispatch)

together with a model of `src/priority_queue.hpp`.

Modelling conventions, used throughout:

* Machine `size_t` / `uint32_t` counters are `Nat`; `double` scores are `Int`
  (only comparisons of scores are ever observed by the engine).  The sentinel
  `std::numeric_limits<size_t>::max()` returned by the depth scanners is
  modelled as `Option.none`.
* Node pointers are arena indices (`NodeVar`, `NoirVar`: index into the
  `std::deque<Node>` storage) or allocation identities (`AiVar`).  The slabs
  are address-stable in the source, so reading a field of a *deallocated* node
  is a well-defined read of its slot and the arena model reproduces it exactly
  (including the free list threaded through the `parent` field).
* Dereferencing a null pointer, indexing a vector out of bounds, calling
  `top()` on an empty queue and `throw` are modelled by an `Option.none`
  result of the enclosing operation.
* Plain `assert(...)` calls are compiled out in release builds and are not
  modelled, except where the asserted pointer is dereferenced right after
  (which is then the null-dereference case above).
-/

/-! ## Priority queue (`src/priority_queue.hpp`)

`PriorityQueue<T, Compare>` derives from `std::priority_queue<T, vector<T>,
Compare>`; the heap algorithms themselves are standard-library code, not
repository code.  Modelled from the spec (§4.1 "conventional binary max-heap"):
the backing container is kept in canonical order — sorted by the relation
`r x y` := "the comparator does not order `x` below `y`", so the queue's `top`
(the comparator-greatest element) is the head.  `push` is ordered insertion,
`pop` drops the head, `export_container` hands the backing container out and
`import_container` re-establishes the canonical order (`std::make_heap`). -/

section PriorityQueueModel

variable {α : Type} (r : α → α → Prop) [DecidableRel r]

/-- `push(x)`: insert keeping the canonical (sorted) backing order. -/
def pqPush (l : List α) (x : α) : List α := l.orderedInsert r x

/-- `top()`: the comparator-greatest element.  `top()` on an empty queue is
undefined behaviour in the source; here it is `none`. -/
def pqTop? (l : List α) : Option α := l.head?

/-- `pop()`: remove the top element. -/
def pqPop (l : List α) : List α := l.tail

/-- `export_container()`: move the backing container out. -/
def pqExport (l : List α) : List α := l

/-- `import_container(seq)`: take ownership of `seq` and re-heapify
(`std::make_heap`), i.e. re-establish the canonical order. -/
def pqImport (d : List α) : List α := d.insertionSort r

/-- Pushing a whole list of elements, first to last. -/
def pqPushAll (l : List α) (xs : List α) : List α :=
  xs.foldl (fun acc x => pqPush r acc x) l

theorem pqPushAll_perm (l xs : List α) : List.Perm (pqPushAll r l xs) (l ++ xs) := by
  induction xs generalizing l with
  | nil => simp [pqPushAll]
  | cons x xs ih =>
    have h1 : List.Perm (pqPushAll r (pqPush r l x) xs) (pqPush r l x ++ xs) := ih _
    have h2 : List.Perm (pqPush r l x) (x :: l) := List.perm_orderedInsert r x l
    have h3 : List.Perm (pqPush r l x ++ xs) ((x :: l) ++ xs) := h2.append_right xs
    exact (h1.trans h3).trans List.perm_middle.symm

theorem pqPushAll_sorted [IsTotal α r] [IsTrans α r] (l xs : List α)
    (h : l.Sorted r) : (pqPushAll r l xs).Sorted r := by
  induction xs generalizing l with
  | nil => exact h
  | cons x xs ih => exact ih _ (h.orderedInsert x l)

end PriorityQueueModel

/-! ## The swap-with-back removal loop

All three variants remove elements from a vector with the same idiom
(`remove_orphans` / `remove_losers` in the sources):

```
for (size_t i = 0; i < container.size();) {
    if (bad(container[i])) { [effect]; container[i] = container.back(); container.pop_back(); }
    else ++i;
}
```

`sweepGo` is that loop; `bad` may read the state mutated by the per-removal
effect `eff` (the `noir` orphan sweep reads `pruned` flags that the sweep
itself sets), and may fail (`none`) where the source dereferences null.  The
fuel equals the loop measure `container.size() − i`, so `sweepRun` always has
enough. -/

section Sweep

variable {σ α : Type}

def sweepGo (bad : σ → α → Option Bool) (eff : σ → α → σ) :
    Nat → σ → List α → Nat → Option (σ × List α × List α)
  | 0, st, l, _ => some (st, l, [])
  | fuel + 1, st, l, i =>
    if h : i < l.length then
      let x := l.get ⟨i, h⟩
      match bad st x with
      | none => none
      | some true =>
        match sweepGo bad eff fuel (eff st x)
            ((l.set i (l.getLast (List.ne_nil_of_length_pos
              (Nat.lt_of_le_of_lt (Nat.zero_le i) h)))).dropLast) i with
        | none => none
        | some (st2, k, rem) => some (st2, k, x :: rem)
      | some false => sweepGo bad eff fuel st l (i + 1)
    else some (st, l, [])

/-- Run the removal loop from `i = 0`; the list length is exactly the number
of iterations the C++ loop performs. -/
def sweepRun (bad : σ → α → Option Bool) (eff : σ → α → σ) (st : σ) (l : List α) :
    Option (σ × List α × List α) :=
  sweepGo bad eff l.length st l 0

theorem set_concat_last (M : List α) (b c : α) : (M ++ [b]).set M.length c = M ++ [c] := by
  induction M with
  | nil => rfl
  | cons a M ih => simp [ih]

/-- Removing index `i` by overwriting it with the back element and popping the
back is a permutation: the removed element plus the new container re-arrange
the old container. -/
theorem swapRemove_perm (l : List α) (i : Nat) (h : i < l.length) :
    List.Perm
      (l.get ⟨i, h⟩ ::
        ((l.set i (l.getLast (List.ne_nil_of_length_pos
          (Nat.lt_of_le_of_lt (Nat.zero_le i) h)))).dropLast)) l := by
  have hne : l ≠ [] := List.ne_nil_of_length_pos (Nat.lt_of_le_of_lt (Nat.zero_le i) h)
  obtain ⟨M, b, rfl⟩ : ∃ M b, l = M ++ [b] :=
    ⟨l.dropLast, l.getLast hne, (List.dropLast_append_getLast hne).symm⟩
  have hlast : ∀ hx, (M ++ [b]).getLast hx = b := fun _ => List.getLast_concat M
  rw [hlast]
  rcases Nat.lt_or_ge i M.length with hi | hi
  · have hget : (M ++ [b]).get ⟨i, h⟩ = M.get ⟨i, hi⟩ := List.get_append i hi
    rw [hget, List.set_append_left i b hi, List.dropLast_concat]
    have hsetM : M.set i b = M.take i ++ b :: M.drop (i + 1) :=
      List.set_eq_take_cons_drop b hi
    have hM : M = M.take i ++ M.get ⟨i, hi⟩ :: M.drop (i + 1) := by
      conv_lhs => rw [← List.take_append_drop i M, List.drop_eq_getElem_cons hi]
      simp [List.get_eq_getElem]
    rw [hsetM]
    have s1 : List.Perm (M.get ⟨i, hi⟩ :: (M.take i ++ b :: M.drop (i + 1)))
        (M.get ⟨i, hi⟩ :: (M.take i ++ (M.drop (i + 1) ++ [b]))) := by
      refine List.Perm.cons _ (List.Perm.append_left _ ?_)
      exact (List.perm_append_singleton _ _).symm
    have s2 : List.Perm (M.get ⟨i, hi⟩ :: (M.take i ++ (M.drop (i + 1) ++ [b])))
        (M.take i ++ M.get ⟨i, hi⟩ :: (M.drop (i + 1) ++ [b])) :=
      List.perm_middle.symm
    refine (s1.trans s2).trans (List.Perm.of_eq ?_)
    conv_rhs => rw [hM]
    rw [List.append_assoc, List.cons_append]

  · have hi2 : i = M.length := by
      have := h; simp only [List.length_append, List.length_singleton] at this; omega
    subst hi2
    have hget : (M ++ [b]).get ⟨M.length, h⟩ = b := by
      simp
    rw [hget, set_concat_last, List.dropLast_concat]
    exact (List.perm_append_singleton _ _).symm

/-- The kept and removed elements together permute the input container. -/
theorem sweepGo_perm {bad : σ → α → Option Bool} {eff : σ → α → σ} :
    ∀ (fuel : Nat) (st : σ) (l : List α) (i : Nat),
      l.length ≤ fuel + i →
      ∀ {st2 : σ} {k rem : List α}, sweepGo bad eff fuel st l i = some (st2, k, rem) →
      List.Perm (k ++ rem) l := by
  intro fuel
  induction fuel with
  | zero =>
    intro st l i hle st2 k rem heq
    simp only [sweepGo, Option.some.injEq, Prod.mk.injEq] at heq
    obtain ⟨-, rfl, rfl⟩ := heq
    simp
  | succ fuel ih =>
    intro st l i hle st2 k rem heq
    by_cases h : i < l.length
    · rcases hbad : bad st (l.get ⟨i, h⟩) with _ | b
      · simp only [sweepGo, dif_pos h, hbad] at heq
        exact Option.noConfusion heq
      · rcases b with _ | _
        · -- keep branch
          simp only [sweepGo, dif_pos h, hbad] at heq
          exact ih st l (i + 1) (by omega) heq
        · -- remove branch
          rcases hrec : sweepGo bad eff fuel (eff st (l.get ⟨i, h⟩))
              ((l.set i (l.getLast (List.ne_nil_of_length_pos
                (Nat.lt_of_le_of_lt (Nat.zero_le i) h)))).dropLast) i with _ | ⟨st3, k3, rem3⟩
          · simp only [sweepGo, dif_pos h, hbad, hrec] at heq
            exact Option.noConfusion heq
          · simp only [sweepGo, dif_pos h, hbad, hrec, Option.some.injEq,
              Prod.mk.injEq] at heq
            obtain ⟨-, rfl, rfl⟩ := heq
            have hlen2 : ((l.set i (l.getLast (List.ne_nil_of_length_pos
                (Nat.lt_of_le_of_lt (Nat.zero_le i) h)))).dropLast).length ≤ fuel + i := by
              simp only [List.length_dropLast, List.length_set]
              omega
            have hperm := ih _ _ i hlen2 hrec
            have h1 : List.Perm (k3 ++ l.get ⟨i, h⟩ :: rem3)
                (l.get ⟨i, h⟩ :: (k3 ++ rem3)) := List.perm_middle
            exact (h1.trans (hperm.cons _)).trans (swapRemove_perm l i h)
    · simp only [sweepGo, dif_neg h, Option.some.injEq, Prod.mk.injEq] at heq
      obtain ⟨-, rfl, rfl⟩ := heq
      simp

/-- If each effect application shifts a measure by exactly `c`, the final
state's measure grew by `c` per removed element. -/
theorem sweepGo_measure (bad : σ → α → Option Bool) (eff : σ → α → σ)
    (μ : σ → Nat) (c : Nat) (hμ : ∀ t x, μ (eff t x) = μ t + c) :
    ∀ (fuel : Nat) (st : σ) (l : List α) (i : Nat),
      ∀ {st2 : σ} {k rem : List α}, sweepGo bad eff fuel st l i = some (st2, k, rem) →
      μ st2 = μ st + c * rem.length := by
  intro fuel
  induction fuel with
  | zero =>
    intro st l i st2 k rem heq
    simp only [sweepGo, Option.some.injEq, Prod.mk.injEq] at heq
    obtain ⟨rfl, -, rfl⟩ := heq
    simp
  | succ fuel ih =>
    intro st l i st2 k rem heq
    by_cases h : i < l.length
    · rcases hbad : bad st (l.get ⟨i, h⟩) with _ | b
      · simp only [sweepGo, dif_pos h, hbad] at heq
        exact Option.noConfusion heq
      · rcases b with _ | _
        · simp only [sweepGo, dif_pos h, hbad] at heq
          exact ih st l (i + 1) heq
        · rcases hrec : sweepGo bad eff fuel (eff st (l.get ⟨i, h⟩))
              ((l.set i (l.getLast (List.ne_nil_of_length_pos
                (Nat.lt_of_le_of_lt (Nat.zero_le i) h)))).dropLast) i with _ | ⟨st3, k3, rem3⟩
          · simp only [sweepGo, dif_pos h, hbad, hrec] at heq
            exact Option.noConfusion heq
          · simp only [sweepGo, dif_pos h, hbad, hrec, Option.some.injEq,
              Prod.mk.injEq] at heq
            obtain ⟨rfl, -, rfl⟩ := heq
            have hrecm := ih _ _ i hrec
            rw [hrecm, hμ]
            simp only [List.length_cons, Nat.mul_succ]
            omega
    · simp only [sweepGo, dif_neg h, Option.some.injEq, Prod.mk.injEq] at heq
      obtain ⟨rfl, -, rfl⟩ := heq
      simp

/-- With a state-independent predicate, every kept element fails the predicate
and every removed element satisfies it. -/
theorem sweepGo_static_partition {eff : σ → α → σ} (b : α → Bool) :
    ∀ (fuel : Nat) (st : σ) (l : List α) (i : Nat),
      l.length ≤ fuel + i →
      (∀ j (hj : j < l.length), j < i → b (l.get ⟨j, hj⟩) = false) →
      ∀ {st2 : σ} {k rem : List α},
        sweepGo (fun _ x => some (b x)) eff fuel st l i = some (st2, k, rem) →
        (∀ x ∈ k, b x = false) ∧ (∀ x ∈ rem, b x = true) := by
  intro fuel
  induction fuel with
  | zero =>
    intro st l i hle hinv st2 k rem heq
    simp only [sweepGo, Option.some.injEq, Prod.mk.injEq] at heq
    obtain ⟨-, rfl, rfl⟩ := heq
    refine ⟨fun x hx => ?_, by simp⟩
    obtain ⟨⟨j, hj⟩, rfl⟩ := List.mem_iff_get.mp hx
    exact hinv j hj (by omega)
  | succ fuel ih =>
    intro st l i hle hinv st2 k rem heq
    by_cases h : i < l.length
    · rcases hb : b (l.get ⟨i, h⟩) with _ | _
      · -- keep branch
        simp only [sweepGo, dif_pos h, hb] at heq
        refine ih st l (i + 1) (by omega) ?_ heq
        intro j hj hji
        rcases Nat.lt_or_ge j i with hj2 | hj2
        · exact hinv j hj hj2
        · have : j = i := by omega
          subst this
          exact hb
      · -- remove branch
        rcases hrec : sweepGo (fun _ x => some (b x)) eff fuel (eff st (l.get ⟨i, h⟩))
            ((l.set i (l.getLast (List.ne_nil_of_length_pos
              (Nat.lt_of_le_of_lt (Nat.zero_le i) h)))).dropLast) i with _ | ⟨st3, k3, rem3⟩
        · simp only [sweepGo, dif_pos h, hb, hrec] at heq
          exact Option.noConfusion heq
        · simp only [sweepGo, dif_pos h, hb, hrec, Option.some.injEq, Prod.mk.injEq] at heq
          obtain ⟨-, rfl, rfl⟩ := heq
          set l2 := (l.set i (l.getLast (List.ne_nil_of_length_pos
            (Nat.lt_of_le_of_lt (Nat.zero_le i) h)))).dropLast with hl2
          have hlen2 : l2.length ≤ fuel + i := by
            simp only [hl2, List.length_dropLast, List.length_set]
            omega
          have hinv2 : ∀ j (hj : j < l2.length), j < i → b (l2.get ⟨j, hj⟩) = false := by
            intro j hj hji
            have hjl : j < l.length := by
              simp only [hl2, List.length_dropLast, List.length_set] at hj
              omega
            have hjs : j < (l.set i (l.getLast (List.ne_nil_of_length_pos
                (Nat.lt_of_le_of_lt (Nat.zero_le i) h)))).length := by
              simp only [List.length_set]
              omega
            have e1 : l2.get ⟨j, hj⟩ = l2[j] := rfl
            have e2 : l2[j] = (l.set i (l.getLast (List.ne_nil_of_length_pos
                (Nat.lt_of_le_of_lt (Nat.zero_le i) h))))[j] := by
              simp only [hl2]
              exact List.getElem_dropLast _ j _
            have e3 : (l.set i (l.getLast (List.ne_nil_of_length_pos
                (Nat.lt_of_le_of_lt (Nat.zero_le i) h))))[j] = l[j] := by
              rw [List.getElem_set_ne (by omega)]
            rw [e1, e2, e3]
            exact hinv j hjl hji
          obtain ⟨hk, hr⟩ := ih _ l2 i hlen2 hinv2 hrec
          refine ⟨hk, ?_⟩
          intro x hx
          rcases List.mem_cons.mp hx with rfl | hx2
          · exact hb
          · exact hr x hx2
    · simp only [sweepGo, dif_neg h, Option.some.injEq, Prod.mk.injEq] at heq
      obtain ⟨-, rfl, rfl⟩ := heq
      refine ⟨fun x hx => ?_, by simp⟩
      obtain ⟨⟨j, hj⟩, rfl⟩ := List.mem_iff_get.mp hx
      exact hinv j hj (by omega)

/-- A state-independent sweep removes every element satisfying the predicate:
if some element of the container satisfies it, at least one element is
removed. -/
theorem sweepRun_removes_bad {eff : σ → α → σ} (b : α → Bool) (st : σ) (l : List α)
    {st2 : σ} {k rem : List α}
    (heq : sweepRun (fun _ x => some (b x)) eff st l = some (st2, k, rem))
    {x : α} (hx : x ∈ l) (hbx : b x = true) : x ∈ rem := by
  have hperm := sweepGo_perm l.length st l 0 (by omega) heq
  have hpart := sweepGo_static_partition b l.length st l 0 (by omega)
    (by intro j hj hji; omega) heq
  have hmem : x ∈ k ++ rem := hperm.mem_iff.mpr hx
  rcases List.mem_append.mp hmem with hk | hr
  · exact absurd (hpart.1 x hk) (by simp [hbx])
  · exact hr

end Sweep

/-! ## Shared data of the two single-threaded variants

`node_manager_new.hpp` and `include/node_manager.hpp` share the node-value
record, the depth bucket layout and the depth scanners verbatim; they are
defined once here and the variant-specific parts live in the namespaces
`NodeVar` and `NoirVar` below. -/

/-- An `(node, value)` entry of a depth's `unsearched` priority queue
(`NodeValue` in both single-threaded variants); `node` is the arena index of
the node, `value` the `double` score. -/
structure NodeValue where
  node : Nat
  value : Int
deriving DecidableEq, Inhabited

/-- The canonical-order relation of `NodeValueCompare`
(`left.value < right.value`): `a` precedes `b` when the comparator does not
place `a` below `b`, i.e. `b.value ≤ a.value` — descending scores, the
queue's top is the highest score. -/
def nvLE (a b : NodeValue) : Prop := b.value ≤ a.value

instance : DecidableRel nvLE := fun a b => inferInstanceAs (Decidable (b.value ≤ a.value))

instance : IsTotal NodeValue nvLE := ⟨fun a b => le_total b.value a.value⟩

instance : IsTrans NodeValue nvLE := ⟨fun _ _ _ h1 h2 => le_trans h2 h1⟩

/-- `NodeDepth`: one depth bucket — `unsearched` priority queue plus
`searched` vector (of arena indices). -/
structure NodeDepth where
  unsearched : List NodeValue := []
  searched : List Nat := []
deriving DecidableEq, Inhabited

/-- `push(node, value)`: insert into `unsearched`. -/
def NodeDepth.push (d : NodeDepth) (id : Nat) (value : Int) : NodeDepth :=
  {d with unsearched := pqPush nvLE d.unsearched ⟨id, value⟩}

/-- `size()`: total entries at this depth. -/
def NodeDepth.size (d : NodeDepth) : Nat :=
  d.unsearched.length + d.searched.length

/-- `empty()`. -/
def NodeDepth.emptyb (d : NodeDepth) : Bool :=
  d.unsearched.isEmpty && d.searched.isEmpty

/-- `clear()`: empty both substructures without touching the pool. -/
def NodeDepth.clearAll (_d : NodeDepth) : NodeDepth := {unsearched := [], searched := []}

/-- `get_unsearched_node()`: remove the heap max, append it to `searched`,
return it.  `top()` on an empty heap is undefined behaviour (`none`). -/
def NodeDepth.get_unsearched_node (d : NodeDepth) : Option (Nat × NodeDepth) :=
  match d.unsearched.head? with
  | none => none
  | some nv => some (nv.node, {unsearched := d.unsearched.tail, searched := d.searched ++ [nv.node]})

/-- `get_first_active_depth_index()`: the first depth holding more than one
node, scanning from depth `0`; the `SIZE_MAX` miss is `none`. -/
def firstActiveAux : List NodeDepth → Nat → Option Nat
  | [], _ => none
  | d :: ds, i => if d.size > 1 then some i else firstActiveAux ds (i + 1)

/-- `get_last_active_depth_index()`: the deepest non-empty depth; the
`SIZE_MAX` miss is `none`. -/
def lastActiveAux : List NodeDepth → Option Nat
  | [] => none
  | d :: ds =>
    match lastActiveAux ds with
    | some j => some (j + 1)
    | none => if d.emptyb then none else some 0

/-- `std::vector::resize(n)`: keep a prefix, value-initialise new slots. -/
def listResize {α : Type} (l : List α) (n : Nat) (dflt : α) : List α :=
  if l.length ≤ n then l ++ List.replicate (n - l.length) dflt
  else l.take n

theorem firstActiveAux_spec : ∀ (ds : List NodeDepth) (i0 j : Nat),
    firstActiveAux ds i0 = some j →
    i0 ≤ j ∧ j - i0 < ds.length ∧ (ds.getD (j - i0) default).size > 1 := by
  intro ds
  induction ds with
  | nil => intro i0 j h; exact absurd h (by simp [firstActiveAux])
  | cons d ds ih =>
    intro i0 j h
    simp only [firstActiveAux] at h
    by_cases hd : d.size > 1
    · rw [if_pos hd] at h
      cases h
      simp [hd]
    · rw [if_neg hd] at h
      obtain ⟨h1, h2, h3⟩ := ih (i0 + 1) j h
      refine ⟨by omega, by simp; omega, ?_⟩
      have : j - i0 = (j - (i0 + 1)) + 1 := by omega
      rw [this]
      simpa using h3

theorem lastActiveAux_spec : ∀ (ds : List NodeDepth) (j : Nat),
    lastActiveAux ds = some j →
    j < ds.length ∧ (ds.getD j default).emptyb = false := by
  intro ds
  induction ds with
  | nil => intro j h; exact absurd h (by simp [lastActiveAux])
  | cons d ds ih =>
    intro j h
    simp only [lastActiveAux] at h
    rcases hrec : lastActiveAux ds with _ | j2
    · rw [hrec] at h
      by_cases hd : d.emptyb
      · rw [if_pos hd] at h; exact absurd h (by simp)
      · rw [if_neg hd] at h
        cases h
        refine ⟨by simp, ?_⟩
        simpa using hd
    · rw [hrec] at h
      cases h
      obtain ⟨h1, h2⟩ := ih j2 hrec
      refine ⟨by simpa using h1, ?_⟩
      simpa using h2

/-! ## `NodeVar` — `src/node_manager_new.hpp` (`namespace node`) -/

namespace NodeVar

/-- The `Node` record.  The source marks pruned nodes by writing the
`size_t` sentinel `SIZE_MAX` over the first word of `state`
(`mark_pruned` / `is_pruned`); the slot model keeps that mark as the boolean
`pruned` of the slot (the engine never reads the state of a pruned node).
A deallocated slot's `parent` field holds the free-list link, exactly as in
the source. -/
structure NodeRec (S : Type) where
  parent : Option Nat
  pruned : Bool
  state : S
deriving DecidableEq

instance {S : Type} [Inhabited S] : Inhabited (NodeRec S) := ⟨⟨none, false, default⟩⟩

variable {S : Type} [Inhabited S]

/-- `NodeMemory`: deque-backed slab with free list, allocation cursor and
free counter. -/
structure NodeMemory (S : Type) where
  node_storage : List (NodeRec S)
  free_head : Option Nat
  cursor : Nat
  free_count : Nat
deriving DecidableEq

/-- `reset()`: mark all slots free without releasing memory. -/
def NodeMemory.reset (m : NodeMemory S) : NodeMemory S :=
  {m with free_head := none, cursor := 0, free_count := m.node_storage.length}

/-- `size()`: live node count `node_storage.size() - free_count`. -/
def NodeMemory.size (m : NodeMemory S) : Nat :=
  m.node_storage.length - m.free_count

/-- `remaining()`. -/
def NodeMemory.remaining (m : NodeMemory S) : Nat := m.free_count

/-- `is_limit_reached(limit)`: `size() >= limit`. -/
def NodeMemory.is_limit_reached (m : NodeMemory S) (limit : Nat) : Bool :=
  limit ≤ m.size

/-- `allocate_raw()`: pop the free list, else reuse the slot under the
cursor, else append a fresh slot. -/
def NodeMemory.allocate_raw (m : NodeMemory S) : Nat × NodeMemory S :=
  match m.free_head with
  | some h =>
    (h, {m with free_head := (m.node_storage.getD h default).parent,
                free_count := m.free_count - 1})
  | none =>
    if m.cursor < m.node_storage.length then
      (m.cursor, {m with cursor := m.cursor + 1, free_count := m.free_count - 1})
    else
      (m.node_storage.length,
        {m with node_storage := m.node_storage ++ [default], cursor := m.cursor + 1})

/-- `allocate(parent)`: raw-allocate, clear the pruned mark, set `parent`. -/
def NodeMemory.allocate (m : NodeMemory S) (parent : Option Nat) : Nat × NodeMemory S :=
  let (id, m1) := m.allocate_raw
  let nd := {m1.node_storage.getD id default with pruned := false, parent := parent}
  (id, {m1 with node_storage := m1.node_storage.set id nd})

/-- `deallocate(node)`: set the pruned mark, thread the slot into the free
list via `parent`, bump the free counter. -/
def NodeMemory.deallocate (m : NodeMemory S) (id : Nat) : NodeMemory S :=
  let nd := {m.node_storage.getD id default with pruned := true, parent := m.free_head}
  {m with
    node_storage := m.node_storage.set id nd,
    free_head := some id,
    free_count := m.free_count + 1}

/-- `Node::get_parent_at(n)` of `node_manager_new.hpp`, lines 40–46.  The
recursive call is `get_parent_at(n - 1)` on `this`, not on `parent`: the walk
never moves to the parent.  The `assert(parent != nullptr)` abort is `none`. -/
def get_parent_at (nodes : List (NodeRec S)) (i : Nat) : Nat → Option Nat
  | 0 => some i
  | n + 1 =>
    match (nodes.getD i default).parent with
    | none => none
    | some _ => get_parent_at nodes i n

/-- `Node::get_first_parent()`: `nullptr` for the root (`some none`), the
depth-1 ancestor otherwise; fuel guards the parent recursion (`none` = the
walk ran off the arena, impossible on acyclic chains). -/
def get_first_parent (nodes : List (NodeRec S)) : Nat → Nat → Option (Option Nat)
  | _, 0 => none
  | i, fuel + 1 =>
    match (nodes.getD i default).parent with
    | none => some none
    | some p =>
      if (nodes.getD p default).parent = none then some (some i)
      else get_first_parent nodes p fuel

/-- `NodeDepth::make_root()`: clear the parent of the single searched node;
`searched[0]` on an empty vector is undefined behaviour. -/
def make_root (d : NodeDepth) (nodes : List (NodeRec S)) : Option (List (NodeRec S)) :=
  match d.searched.head? with
  | none => none
  | some id => some (nodes.set id {nodes.getD id default with parent := none})

/-- The orphan test of this variant's sweep: the node's own pruned mark. -/
def cleanBadU (t : NodeMemory S) (nv : NodeValue) : Option Bool :=
  some (t.node_storage.getD nv.node default).pruned

def cleanBadS (t : NodeMemory S) (id : Nat) : Option Bool :=
  some (t.node_storage.getD id default).pruned

/-- The loser test of `filter`: any node other than the survivor pointer. -/
def filtBadU (surv : Option Nat) (_t : NodeMemory S) (nv : NodeValue) : Option Bool :=
  some (decide (some nv.node ≠ surv))

def filtBadS (surv : Option Nat) (_t : NodeMemory S) (id : Nat) : Option Bool :=
  some (decide (some id ≠ surv))

/-- The per-removal effect: `memory.deallocate(node)`. -/
def effU (t : NodeMemory S) (nv : NodeValue) : NodeMemory S := t.deallocate nv.node

def effS (t : NodeMemory S) (id : Nat) : NodeMemory S := t.deallocate id

/-- `NodeDepth::cleanup(memory)`: deallocate every container entry whose node
reads pruned, with the heap handled through `export` / filter / `import`. -/
def cleanup (d : NodeDepth) (m : NodeMemory S) : Option (NodeDepth × NodeMemory S) :=
  if d.emptyb then some (d, m)
  else do
    let (m1, u1) ←
      if d.unsearched.isEmpty then some (m, d.unsearched)
      else do
        let (m', kept, _) ← sweepRun cleanBadU effU m (pqExport d.unsearched)
        some (m', pqImport nvLE kept)
    let (m2, s1, _) ← sweepRun cleanBadS effS m1 d.searched
    some (({unsearched := u1, searched := s1} : NodeDepth), m2)

/-- `NodeDepth::filter(survivor, memory)`: keep only the survivor, deallocate
every other entry.  `surv = none` is the null survivor pointer (then nothing
is kept). -/
def filter (d : NodeDepth) (surv : Option Nat) (m : NodeMemory S) :
    Option (NodeDepth × NodeMemory S) :=
  if d.emptyb then some (d, m)
  else do
    let (m1, u1) ←
      if d.unsearched.isEmpty then some (m, d.unsearched)
      else do
        let (m', kept, _) ← sweepRun (filtBadU surv) effU m (pqExport d.unsearched)
        some (m', pqImport nvLE kept)
    let (m2, s1, _) ← sweepRun (filtBadS surv) effS m1 d.searched
    some (({unsearched := u1, searched := s1} : NodeDepth), m2)

/-- `NodeTreeConfig`. -/
structure NodeTreeConfig where
  depth : Nat := 7
  node_limit : Nat := 100000
deriving DecidableEq

/-- `NodeCursor`. -/
structure NodeCursor where
  cursor : Option Nat := none
  allocated_node : Option Nat := none
  depth : Nat := 0
deriving DecidableEq

/-- The `NodeManager` state. -/
structure Mgr (S : Type) where
  memory : NodeMemory S
  node_cursor : NodeCursor
  depths : List NodeDepth
  config : NodeTreeConfig
deriving DecidableEq

/-- The depth-range cleanup loop of `prune`
(`for (size_t i = first; i <= last; ++i) depths[i].cleanup(memory)`);
fuel is the trip count `last + 1 - first`. -/
def cleanupRange : Nat → Mgr S → Nat → Option (Mgr S)
  | 0, s, _ => some s
  | fuel + 1, s, i => do
    let (d1, m1) ← cleanup (s.depths.getD i default) s.memory
    cleanupRange fuel {s with depths := s.depths.set i d1, memory := m1} (i + 1)

/-- `prune()` of `node_manager_new.hpp`, lines 268–291. -/
def prune (s : Mgr S) : Option (Bool × Mgr S) :=
  let firstIdx := firstActiveAux s.depths 0
  let lastIdx := lastActiveAux s.depths
  if firstIdx = lastIdx then some (false, s)
  else
    match lastIdx with
    | none => none
    | some l =>
      match firstIdx with
      | none => none
      | some f =>
        let diff := l - f
        match (s.depths.getD l default).unsearched.head? with
        | none => none
        | some bv =>
          match get_parent_at s.memory.node_storage bv.node diff with
          | none => none
          | some surv => do
            let (d1, m1) ← filter (s.depths.getD f default) (some surv) s.memory
            let s1 := {s with depths := s.depths.set f d1, memory := m1}
            let s2 ← cleanupRange (l + 1 - f) s1 f
            some (true, s2)

/-- `reset(current_state)`: reset the pool, clear and resize the buckets,
allocate the root and seed depth 0. -/
def reset (s : Mgr S) (current_state : S) : Mgr S :=
  let m := s.memory.reset
  let ds := listResize (s.depths.map NodeDepth.clearAll) (s.config.depth + 1) default
  let (rootId, m1) := m.allocate none
  let rd := {m1.node_storage.getD rootId default with state := current_state}
  let m2 := {m1 with node_storage := m1.node_storage.set rootId rd}
  {s with memory := m2, depths := ds.set 0 ((ds.getD 0 default).push rootId 0)}

/-- `get_root()`: the single searched node of the front bucket, `nullptr`
(`some none`) when depth 0 has no searched node; `depths.front()` on an empty
vector is undefined behaviour. -/
def get_root (s : Mgr S) : Option (Option Nat) :=
  match s.depths.head? with
  | none => none
  | some d => some d.searched.head?

/-- `get_best_node()`: top of the deepest non-empty depth's `unsearched`
heap; `nullptr` (`some none`) when every depth is empty.  The variant indexes
`depths[last]` and calls `top()` without an emptiness check — `top()` on a
searched-only depth is undefined behaviour. -/
def get_best_node (s : Mgr S) : Option (Option Nat) :=
  match lastActiveAux s.depths with
  | none => some none
  | some li =>
    match (s.depths.getD li default).unsearched.head? with
    | none => none
    | some nv => some (some nv.node)

/-- `prepare_tree(current_state)` of `node_manager_new.hpp`, lines 298–323. -/
def prepare_tree [DecidableEq S] (s : Mgr S) (current_state : S) : Option (Mgr S) :=
  if s.config.depth < s.depths.length then some (reset s current_state)
  else
    let s0 := {s with depths := listResize s.depths s.config.depth default}
    match get_root s0 with
    | none => none
    | some none => some (reset s0 current_state)
    | some (some rootId) =>
      if (s0.memory.node_storage.getD rootId default).state ≠ current_state then
        some (reset s0 current_state)
      else do
        let m1 := s0.memory.deallocate rootId
        -- shift the buckets down by one; the trailing moved-from bucket is
        -- the one `depths.back().clear()` empties below
        let ds1 := s0.depths.tail ++ [(default : NodeDepth)]
        let s1 : Mgr S := {s0 with memory := m1, depths := ds1}
        let bn ← get_best_node s1
        let surv ←
          match bn with
          | none => none   -- get_first_parent called on a null pointer
          | some bnId =>
            get_first_parent s1.memory.node_storage bnId (s1.memory.node_storage.length + 1)
        let (d0, m2) ← filter (s1.depths.getD 0 default) surv s1.memory
        let s2 : Mgr S := {s1 with memory := m2, depths := s1.depths.set 0 d0}
        let ns ← make_root (s2.depths.getD 0 default) s2.memory.node_storage
        let s3 : Mgr S := {s2 with memory := {s2.memory with node_storage := ns}}
        let lastIdx := s3.depths.length - 1
        let dsc := s3.depths.set lastIdx ((s3.depths.getD lastIdx default).clearAll)
        let s4 : Mgr S := {s3 with depths := dsc}
        let s5 ← cleanupRange (s4.depths.length - 2) s4 1
        some s5

/-- `get_result()` of `node_manager_new.hpp`, lines 356–362.  `some none`
is the in-band `nullptr` result; `none` is undefined behaviour
(`depths[SIZE_MAX]`, or dereferencing the null pointer returned by
`get_first_parent` on the root). -/
def get_result (s : Mgr S) : Option (Option S) :=
  match lastActiveAux s.depths with
  | none => none
  | some li =>
    match (s.depths.getD li default).unsearched.head? with
    | none => some none
    | some nv =>
      match get_first_parent s.memory.node_storage nv.node
          (s.memory.node_storage.length + 1) with
      | none => none
      | some none => none
      | some (some p) => some (some ((s.memory.node_storage.getD p default).state))

/-- `get_total_node_count()`. -/
def get_total_node_count (s : Mgr S) : Nat := s.memory.size

end NodeVar

/-! ## `NoirVar` — `src/include/node_manager.hpp` (`namespace noir`) -/

namespace NoirVar

/-- The `Node` record of the `noir` variant: explicit `pruned` flag.
A deallocated slot's `parent` field holds the free-list link. -/
structure NodeRec (S : Type) where
  parent : Option Nat
  pruned : Bool
  state : S
deriving DecidableEq

instance {S : Type} [Inhabited S] : Inhabited (NodeRec S) := ⟨⟨none, false, default⟩⟩

variable {S : Type} [Inhabited S]

/-- `NodeMemory` (same code as in `node_manager_new.hpp`). -/
structure NodeMemory (S : Type) where
  node_storage : List (NodeRec S)
  free_head : Option Nat
  cursor : Nat
  free_count : Nat
deriving DecidableEq

/-- `reset()`. -/
def NodeMemory.reset (m : NodeMemory S) : NodeMemory S :=
  {m with free_head := none, cursor := 0, free_count := m.node_storage.length}

/-- `size()`. -/
def NodeMemory.size (m : NodeMemory S) : Nat :=
  m.node_storage.length - m.free_count

/-- `remaining()`. -/
def NodeMemory.remaining (m : NodeMemory S) : Nat := m.free_count

/-- `is_limit_reached(limit)`. -/
def NodeMemory.is_limit_reached (m : NodeMemory S) (limit : Nat) : Bool :=
  limit ≤ m.size

/-- `allocate_raw()`. -/
def NodeMemory.allocate_raw (m : NodeMemory S) : Nat × NodeMemory S :=
  match m.free_head with
  | some h =>
    (h, {m with free_head := (m.node_storage.getD h default).parent,
                free_count := m.free_count - 1})
  | none =>
    if m.cursor < m.node_storage.length then
      (m.cursor, {m with cursor := m.cursor + 1, free_count := m.free_count - 1})
    else
      (m.node_storage.length,
        {m with node_storage := m.node_storage ++ [default], cursor := m.cursor + 1})

/-- `allocate(parent)`: raw-allocate, clear `pruned`, set `parent`. -/
def NodeMemory.allocate (m : NodeMemory S) (parent : Option Nat) : Nat × NodeMemory S :=
  let (id, m1) := m.allocate_raw
  let nd := {m1.node_storage.getD id default with pruned := false, parent := parent}
  (id, {m1 with node_storage := m1.node_storage.set id nd})

/-- `deallocate(node)`. -/
def NodeMemory.deallocate (m : NodeMemory S) (id : Nat) : NodeMemory S :=
  let nd := {m.node_storage.getD id default with pruned := true, parent := m.free_head}
  {m with
    node_storage := m.node_storage.set id nd,
    free_head := some id,
    free_count := m.free_count + 1}

/-- `Node::get_parent_at(n)` of `include/node_manager.hpp`, lines 34–40:
the depth-counted ancestor walk, recursing on `parent`.  A null parent on
the way (the asserted case, dereferenced by the recursive call) is `none`. -/
def get_parent_at (nodes : List (NodeRec S)) : Nat → Nat → Option Nat
  | i, 0 => some i
  | i, n + 1 =>
    match (nodes.getD i default).parent with
    | none => none
    | some p => get_parent_at nodes p n

/-- `NodeDepth::make_root()` (noir form): clear the parent of the single
node, wherever it sits; `top()` on an empty heap is undefined behaviour. -/
def make_root (d : NodeDepth) (nodes : List (NodeRec S)) : Option (List (NodeRec S)) :=
  if !d.searched.isEmpty then
    match d.searched.head? with
    | none => none
    | some id => some (nodes.set id {nodes.getD id default with parent := none})
  else
    match d.unsearched.head? with
    | none => none
    | some nv => some (nodes.set nv.node {nodes.getD nv.node default with parent := none})

/-- The orphan test of this variant's sweep: `node->parent->pruned`;
dereferencing a null parent is undefined behaviour (`none`).  Reading the
parent slot of a pruned parent is a defined read of its stable slot, which
the arena reproduces. -/
def cleanBadU (t : NodeMemory S) (nv : NodeValue) : Option Bool :=
  match (t.node_storage.getD nv.node default).parent with
  | none => none
  | some p => some (t.node_storage.getD p default).pruned

def cleanBadS (t : NodeMemory S) (id : Nat) : Option Bool :=
  match (t.node_storage.getD id default).parent with
  | none => none
  | some p => some (t.node_storage.getD p default).pruned

/-- The loser test of `filter`: any node other than the survivor pointer. -/
def filtBadU (surv : Option Nat) (_t : NodeMemory S) (nv : NodeValue) : Option Bool :=
  some (decide (some nv.node ≠ surv))

def filtBadS (surv : Option Nat) (_t : NodeMemory S) (id : Nat) : Option Bool :=
  some (decide (some id ≠ surv))

/-- The per-removal effect: `memory.deallocate(node)`. -/
def effU (t : NodeMemory S) (nv : NodeValue) : NodeMemory S := t.deallocate nv.node

def effS (t : NodeMemory S) (id : Nat) : NodeMemory S := t.deallocate id

/-- `NodeDepth::cleanup(memory)` (noir form): deallocate every container
entry whose **parent** reads pruned. -/
def cleanup (d : NodeDepth) (m : NodeMemory S) : Option (NodeDepth × NodeMemory S) :=
  if d.emptyb then some (d, m)
  else do
    let (m1, u1) ←
      if d.unsearched.isEmpty then some (m, d.unsearched)
      else do
        let (m', kept, _) ← sweepRun cleanBadU effU m (pqExport d.unsearched)
        some (m', pqImport nvLE kept)
    let (m2, s1, _) ← sweepRun cleanBadS effS m1 d.searched
    some (({unsearched := u1, searched := s1} : NodeDepth), m2)

/-- `NodeDepth::filter(survivor, memory)` (identical to the `node` form). -/
def filter (d : NodeDepth) (surv : Option Nat) (m : NodeMemory S) :
    Option (NodeDepth × NodeMemory S) :=
  if d.emptyb then some (d, m)
  else do
    let (m1, u1) ←
      if d.unsearched.isEmpty then some (m, d.unsearched)
      else do
        let (m', kept, _) ← sweepRun (filtBadU surv) effU m (pqExport d.unsearched)
        some (m', pqImport nvLE kept)
    let (m2, s1, _) ← sweepRun (filtBadS surv) effS m1 d.searched
    some (({unsearched := u1, searched := s1} : NodeDepth), m2)

/-- `NodeTreeConfig` with the `prune_depth_limit` knob. -/
structure NodeTreeConfig where
  depth : Nat := 7
  prune_depth_limit : Nat := 0
  node_limit : Nat := 100000
deriving DecidableEq

/-- `NodeCursor`. -/
structure NodeCursor where
  cursor : Option Nat := none
  allocated_node : Option Nat := none
  depth : Nat := 0
deriving DecidableEq

/-- The `noir::NodeManager` state.  The transposition table
(`unordered_map<uint64_t, Node*>`) is global to the manager and maps a hash
to a single node index. -/
structure Mgr (S : Type) where
  memory : NodeMemory S
  node_cursor : NodeCursor
  depths : List NodeDepth
  config : NodeTreeConfig
  total_searched : Nat
  total_collision : Nat
  tt : List (Nat × Nat)
deriving DecidableEq

/-- The per-depth half of `cleanup(start, end)`; fuel is the trip count. -/
def cleanupRange : Nat → Mgr S → Nat → Option (Mgr S)
  | 0, s, _ => some s
  | fuel + 1, s, i => do
    let (d1, m1) ← cleanup (s.depths.getD i default) s.memory
    cleanupRange fuel {s with depths := s.depths.set i d1, memory := m1} (i + 1)

/-- `cleanup(start, end)`: sweep the depth range, then purge transposition
entries whose node reads pruned (slot reads of freed nodes are defined). -/
def mgrCleanup (s : Mgr S) (start stop : Nat) : Option (Mgr S) := do
  let s1 ← cleanupRange (stop - start) s start
  let tt1 := s1.tt.filter (fun pr => !(s1.memory.node_storage.getD pr.2 default).pruned)
  some {s1 with tt := tt1}

/-- `prune()` of `include/node_manager.hpp`, lines 289–316.  The `SIZE_MAX`
scanner miss always exceeds the configured `prune_depth_limit` (the limit is
a small configured count, far below `SIZE_MAX`). -/
def prune (s : Mgr S) : Option (Bool × Mgr S) :=
  if s.config.prune_depth_limit = 0 then some (false, s)
  else
    match firstActiveAux s.depths 0, lastActiveAux s.depths with
    | none, _ => some (false, s)
    | some f, lastIdx =>
      if s.config.prune_depth_limit < f then some (false, s)
      else if some f = lastIdx then some (false, s)
      else
        match lastIdx with
        | none => none
        | some l =>
          let diff := l - f
          match (s.depths.getD l default).unsearched.head? with
          | none => none
          | some bv =>
            match get_parent_at s.memory.node_storage bv.node diff with
            | none => none
            | some surv => do
              let (d1, m1) ← filter (s.depths.getD f default) (some surv) s.memory
              let s1 := {s with depths := s.depths.set f d1, memory := m1}
              let s2 ← mgrCleanup s1 f (l + 1)
              some (true, s2)

/-- `reset(current_state)` (noir form; also clears the transposition table
and re-seeds depth 0 with the root). -/
def reset (s : Mgr S) (current_state : S) : Mgr S :=
  let m := s.memory.reset
  let ds := listResize (s.depths.map NodeDepth.clearAll) (s.config.depth + 1) default
  let (rootId, m1) := m.allocate none
  let rd := {m1.node_storage.getD rootId default with state := current_state}
  let m2 := {m1 with node_storage := m1.node_storage.set rootId rd}
  {s with memory := m2, tt := [],
          depths := ds.set 0 ((ds.getD 0 default).push rootId 0)}

/-- `increment_depth_counter()`: advance the round-robin cursor, wrapping at
`depths.size() - 1`. -/
def increment_depth_counter (s : Mgr S) : Mgr S :=
  let d := s.node_cursor.depth + 1
  let d2 := if d ≥ s.depths.length - 1 then 0 else d
  {s with node_cursor := {s.node_cursor with depth := d2}}

/-- The cursor scan of `get_task`: up to `depths.size()` steps, stopping at
a depth with unsearched work; returns the scanned state and whether work was
found. -/
def scanLoop : Nat → Mgr S → Mgr S × Bool
  | 0, s => (s, false)
  | fuel + 1, s =>
    if (s.depths.getD s.node_cursor.depth default).unsearched.isEmpty then
      scanLoop fuel (increment_depth_counter s)
    else (s, true)

/-- The part of `get_task` after the prune gate: save the cursor, scan; on
success pop at the cursor depth, else restore the cursor and return null. -/
def getTaskScan (s : Mgr S) : Option (Option S × Mgr S) :=
  let last_depth_counter := s.node_cursor.depth
  let (s1, found) := scanLoop s.depths.length s
  if found then
    match (s1.depths.getD s1.node_cursor.depth default).get_unsearched_node with
    | none => none
    | some (id, d1) =>
      let s2 := {s1 with depths := s1.depths.set s1.node_cursor.depth d1,
                         node_cursor := {s1.node_cursor with cursor := some id}}
      some (some ((s2.memory.node_storage.getD id default).state), s2)
  else
    some (none, {s1 with node_cursor := {s1.node_cursor with depth := last_depth_counter}})

/-- `get_task()` of `include/node_manager.hpp`, lines 380–398. -/
def get_task (s : Mgr S) : Option (Option S × Mgr S) :=
  if s.memory.is_limit_reached s.config.node_limit then
    match prune s with
    | none => none
    | some (false, s1) => some (none, s1)
    | some (true, s1) => getTaskScan s1
  else getTaskScan s

/-- `get_new_state()`: allocate a child of the current cursor node; the
caller then writes the state through the returned pointer
(`write_new_state`). -/
def get_new_state (s : Mgr S) : Mgr S :=
  let (id, m1) := s.memory.allocate s.node_cursor.cursor
  {s with memory := m1,
          node_cursor := {s.node_cursor with allocated_node := some id}}

/-- The caller's write through the pointer returned by `get_new_state`. -/
def write_new_state (s : Mgr S) (st : S) : Mgr S :=
  match s.node_cursor.allocated_node with
  | none => s
  | some id =>
    let nd := {s.memory.node_storage.getD id default with state := st}
    {s with memory := {s.memory with node_storage := s.memory.node_storage.set id nd}}

/-- `verify_state()` of `include/node_manager.hpp`, lines 328–339:
hash-only membership in the global table via `try_emplace`; on a duplicate
hash the node is deallocated and the collision counter bumped.  The
user-supplied equality predicate is never consulted here. -/
def verify_state (hashF : S → Nat) (s : Mgr S) : Bool × Mgr S :=
  match s.node_cursor.allocated_node with
  | none => (false, s)
  | some nid =>
    if (s.memory.node_storage.getD nid default).pruned then (false, s)
    else
      let h := hashF (s.memory.node_storage.getD nid default).state
      match s.tt.lookup h with
      | some _ =>
        (false, {s with total_collision := s.total_collision + 1,
                        memory := s.memory.deallocate nid})
      | none => (true, {s with tt := s.tt ++ [(h, nid)]})

/-- `report_result(value)`: count the search and push the allocated child
onto `unsearched[depth + 1]`. -/
def report_result (s : Mgr S) (value : Int) : Option (Mgr S) :=
  match s.node_cursor.allocated_node with
  | none => none
  | some nid =>
    if s.node_cursor.depth + 1 < s.depths.length then
      let d1 := (s.depths.getD (s.node_cursor.depth + 1) default).push nid value
      some {s with total_searched := s.total_searched + 1,
                   depths := s.depths.set (s.node_cursor.depth + 1) d1}
    else none

/-- `get_total_node_count()`. -/
def get_total_node_count (s : Mgr S) : Nat := s.memory.size

/-- `get_total_collision_count()`. -/
def get_total_collision_count (s : Mgr S) : Nat := s.total_collision

end NoirVar

/-! ## `AiVar` — `src/node_manager.hpp` (`namespace ai`, parallel variant)

The `Node` of this variant carries intrusive `child` / `first sibling` links;
`allocate` prepends the new node to the parent's child list.  That pointer
structure is a rose tree and is modelled as one: `child`/`sibling` become the
`children` list (head = most recently attached child), `parent` becomes the
tree spine.  Pointer identity is modelled by the allocation identity `nid`
(slot reuse through the free lists is not modelled; no claim below involves
reuse).  `lanes.deallocate` marks a node by writing `UINT32_MAX` over
`thread_id`; the model records the same fact by appending the node's `nid` to
the manager's `freed` list (`thread_id == UINT32_MAX` ⟺ `nid ∈ freed`),
and tracks the per-lane `free_count` / storage counters exactly. -/

namespace AiVar

/-- One tree node: `state`, owning lane `thread_id`, `total_value`
(a `uint32_t`), the pointer identity `nid`, intrusive child list. -/
inductive AITree (S : Type) where
  | node (state : S) (thread_id : Nat) (total_value : Nat) (nid : Nat)
      (children : List (AITree S))

variable {S : Type} [Inhabited S]

def AITree.state : AITree S → S
  | .node st _ _ _ _ => st

def AITree.thread_id : AITree S → Nat
  | .node _ tid _ _ _ => tid

def AITree.total_value : AITree S → Nat
  | .node _ _ tv _ _ => tv

def AITree.nid : AITree S → Nat
  | .node _ _ _ n _ => n

def AITree.children : AITree S → List (AITree S)
  | .node _ _ _ _ cs => cs

mutual
/-- Number of nodes of a subtree. -/
def AITree.size : AITree S → Nat
  | .node _ _ _ _ cs => 1 + AITree.sizeList cs
def AITree.sizeList : List (AITree S) → Nat
  | [] => 0
  | t :: ts => AITree.size t + AITree.sizeList ts
end

/-- One `NodeMemory` lane, reduced to its counters (the node contents live in
the tree): `storage` = `node_storage.size()` (slots ever created),
`free_count` = length of the free list.  `size()` returns `storage`,
`remaining()` returns `free_count`. -/
structure Lane where
  storage : Nat := 0
  free_count : Nat := 0
deriving DecidableEq, Inhabited

/-- A lane's `allocate` / `allocate_root`: reuse a free slot or append. -/
def laneAllocOne (l : Lane) : Lane :=
  if l.free_count > 0 then {l with free_count := l.free_count - 1}
  else {l with storage := l.storage + 1}

def laneAlloc (ls : List Lane) (tid : Nat) : List Lane :=
  ls.set tid (laneAllocOne (ls.getD tid {}))

/-- A lane's `deallocate`: push the slot onto the free list. -/
def laneDealloc (ls : List Lane) (tid : Nat) : List Lane :=
  ls.set tid (let l := ls.getD tid {}; {l with free_count := l.free_count + 1})

def totalFree (ls : List Lane) : Nat := (ls.map Lane.free_count).sum

def totalStorage (ls : List Lane) : Nat := (ls.map Lane.storage).sum

/-- `NodeMemoryLanes::is_limit_reached(limit)`: the summed `size()` of all
lanes (slots, not live nodes) against the limit. -/
def is_limit_reached (ls : List Lane) (limit : Nat) : Bool :=
  limit ≤ totalStorage ls

mutual
/-- `NodeMemoryLanes::deallocate(node)`: deallocate the children first
(first-to-last along the sibling chain, each recursively), then route the
node itself back to its owning lane; the freed `nid`s are recorded in
order. -/
def deallocTree (ls : List Lane) (freed : List Nat) : AITree S → List Lane × List Nat
  | .node _ tid _ nid cs =>
    let r := deallocList ls freed cs
    (laneDealloc r.1 tid, r.2 ++ [nid])
def deallocList (ls : List Lane) (freed : List Nat) : List (AITree S) → List Lane × List Nat
  | [] => (ls, freed)
  | t :: ts =>
    let r := deallocTree ls freed t
    deallocList r.1 r.2 ts
end

mutual
/-- Locate a node by pointer identity; the result is its path (child indices
from the root). -/
def findPath (nid : Nat) : AITree S → Option (List Nat)
  | .node _ _ _ n cs => if n = nid then some [] else findPathList nid 0 cs
def findPathList (nid : Nat) : Nat → List (AITree S) → Option (List Nat)
  | _, [] => none
  | i, t :: ts =>
    match findPath nid t with
    | some p => some (i :: p)
    | none => findPathList nid (i + 1) ts
end

/-- Follow a path of child indices. -/
def nodeAt : AITree S → List Nat → Option (AITree S)
  | t, [] => some t
  | .node _ _ _ _ cs, i :: p =>
    match cs.get? i with
    | none => none
    | some c => nodeAt c p

/-- One pending depth: `(node, value)` heap plus the per-depth transposition
table (`hash → bucket of nodes`). -/
structure DepthTasks where
  tasks : List NodeValue := []
  transposition_table : List (Nat × List Nat) := []
deriving DecidableEq, Inhabited

/-- `NodeTreeConfig` of the parallel variant. -/
structure NodeTreeConfig where
  depth : Nat := 7
  depth_task_size : Nat := 16
  node_limit : Nat := 100000
  prune_width : Nat := 1
  award_width : Nat := 25
deriving DecidableEq

/-- The `ai::NodeTreeManager` state. -/
structure Mgr (S : Type) where
  lanes : List Lane
  freed : List Nat
  pending_depths : List DepthTasks
  config : NodeTreeConfig
  root : Option (AITree S)
  next_id : Nat

/-- `get_last_active_depth()`: deepest pending depth with tasks. -/
def lastActivePending : List DepthTasks → Option Nat
  | [] => none
  | d :: ds =>
    match lastActivePending ds with
    | some j => some (j + 1)
    | none => if d.tasks.isEmpty then none else some 0

/-- `reset(root_state, thread_count)` of `node_manager.hpp`, lines 414–424:
tear the old tree down into the lanes (or clear them), resize, reset the
pending depths, allocate the root in lane 0 and seed depth 0. -/
def reset (s : Mgr S) (root_state : S) (thread_count : Nat) : Mgr S :=
  let lf :=
    match s.root with
    | none => (([] : List Lane), s.freed)
    | some rt => deallocTree s.lanes s.freed rt
  let lanes2 := listResize lf.1 thread_count {}
  let pd := (listResize s.pending_depths (s.config.depth + 1) {}).map
    (fun _ => ({} : DepthTasks))
  let lanes3 := laneAlloc lanes2 0
  let rootId := s.next_id
  let rt := AITree.node root_state 0 0 rootId []
  let d0 := {(pd.getD 0 {}) with tasks := pqPush nvLE (pd.getD 0 {}).tasks ⟨rootId, 0⟩}
  {s with lanes := lanes3, freed := lf.2, pending_depths := pd.set 0 d0,
          root := some rt, next_id := rootId + 1}

/-- `get_best_state()` of `node_manager.hpp`, lines 502–509: the state of the
depth-1 ancestor (`get_first_parent`) of the best pending leaf; `some none`
is the in-band `nullptr` when nothing is pending, `none` is undefined
behaviour — in particular `get_first_parent` recursing through the root's
null parent. -/
def get_best_state (s : Mgr S) : Option (Option S) :=
  match lastActivePending s.pending_depths with
  | none => some none
  | some li =>
    match (s.pending_depths.getD li {}).tasks.head? with
    | none => none
    | some nv =>
      match s.root with
      | none => none
      | some rt =>
        match findPath nv.node rt with
        | none => none
        | some [] => none
        | some (i :: _) =>
          match rt.children.get? i with
          | none => none
          | some c => some (some c.state)

/-- `try_advance()` of `node_manager.hpp`, lines 511–537.  The best-child
scan deallocates a provisional best each time a strictly better child
supersedes it; children that never beat the running best are left behind.
The old root is detached from all children and deallocated alone; the
pending depths shift down by one and the trailing bucket is cleared. -/
def try_advance (s : Mgr S) : Option (Bool × Mgr S) :=
  match s.root with
  | none => some (false, s)
  | some (.node _ tid _ nid cs) =>
    if cs.isEmpty then some (false, s)
    else
      let step := fun (acc : Option (AITree S) × List Lane × List Nat) (child : AITree S) =>
        match acc.1 with
        | none => (some child, acc.2)
        | some best =>
          if child.total_value > best.total_value then
            let r := deallocTree acc.2.1 acc.2.2 best
            (some child, r)
          else (some best, acc.2)
      let scan := cs.foldl step (none, s.lanes, s.freed)
      match scan.1 with
      | none => none
      | some best =>
        let lanes2 := laneDealloc scan.2.1 tid
        let freed2 := scan.2.2 ++ [nid]
        if s.pending_depths.isEmpty then none
        else
          let pd := s.pending_depths.tail ++ [({} : DepthTasks)]
          some (true, {s with root := some best, lanes := lanes2, freed := freed2,
                              pending_depths := pd})

/-- Read the state of the node with identity `nid`; `none` when the pointer
dangles (the node is not in the tree). -/
def stateOfNid (s : Mgr S) (nid : Nat) : Option S :=
  match s.root with
  | none => none
  | some rt => (findPath nid rt).bind (fun p => (nodeAt rt p).map AITree.state)

/-- The linear bucket scan of `push_new_node`
(`collision_func(existing->state, node->state)`); reading a dangling bucket
entry is `none`. -/
def anyCollide (s : Mgr S) (collisionF : S → S → Bool) (stNew : S) :
    List Nat → Option Bool
  | [] => some false
  | b :: bs =>
    match stateOfNid s b with
    | none => none
    | some stB => if collisionF stB stNew then some true else anyCollide s collisionF stNew bs

/-- `unordered_map::operator[]` + bucket overwrite: bind `k` to `v`. -/
def insertAssoc (l : List (Nat × List Nat)) (k : Nat) (v : List Nat) :
    List (Nat × List Nat) :=
  match l with
  | [] => [(k, v)]
  | (k2, v2) :: rest => if k2 = k then (k, v) :: rest else (k2, v2) :: insertAssoc rest k v

/-- `push_new_node(depth, node, value)` of `node_manager.hpp`, lines 323–334:
hash the state, scan the depth's bucket with the collision predicate; on a
match return without any further effect — the duplicate node is neither
deallocated nor counted; otherwise append it to the bucket and push it onto
the depth's task heap. -/
def push_new_node (hashF : S → Nat) (collisionF : S → S → Bool) (s : Mgr S)
    (depth : Nat) (nid : Nat) (value : Int) : Option (Mgr S) :=
  if depth < s.pending_depths.length then
    match stateOfNid s nid with
    | none => none
    | some stNew =>
      let dt := s.pending_depths.getD depth {}
      let h := hashF stNew
      let bucket := (dt.transposition_table.lookup h).getD []
      match anyCollide s collisionF stNew bucket with
      | none => none
      | some true => some s
      | some false =>
        let tt2 := insertAssoc dt.transposition_table h (bucket ++ [nid])
        let dt2 := {dt with transposition_table := tt2,
                            tasks := pqPush nvLE dt.tasks ⟨nid, value⟩}
        some {s with pending_depths := s.pending_depths.set depth dt2}
  else none

/-! ### `get_tasks` -/

/-- One per-depth batch handed to a worker. -/
structure OutgoingDepthTasks where
  nodes : List Nat
  depth : Nat
deriving DecidableEq

/-- The per-worker batch list. -/
structure ThreadTasks where
  tasks : List OutgoingDepthTasks := []
  thread_id : Nat := 0
deriving DecidableEq, Inhabited

/-- `NodeMemoryLanes::get_free_count()` (as `int`s). -/
def get_free_count (s : Mgr S) : List Int :=
  s.lanes.map (fun l => Int.ofNat l.free_count)

/-- `get_thread_with_most_free`: first worker with the strictly greatest
free count (the `INT_MIN` start value makes the first iteration always
take). -/
def get_thread_with_most_free (counts : List Int) : Nat :=
  ((List.range counts.length).foldl
    (fun acc t =>
      match acc.2 with
      | none => (t, some (counts.getD t 0))
      | some m => if counts.getD t 0 > m then (t, some (counts.getD t 0)) else acc)
    ((0 : Nat), (none : Option Int))).1

/-- `find_best_thread`: maximise `free_count − assigned` (the `float`
arithmetic of the source is exact on these integer ranges; the
`std::numeric_limits<float>::lowest()` start value makes the first iteration
always take). -/
def find_best_thread (counts : List Int) (taskCounts : List Nat) : Nat :=
  ((List.range counts.length).foldl
    (fun acc t =>
      let score := counts.getD t 0 - Int.ofNat (taskCounts.getD t 0)
      match acc.2 with
      | none => (t, some score)
      | some m => if score > m then (t, some score) else acc)
    ((0 : Nat), (none : Option Int))).1

/-- The depth-walking loop of `get_tasks`, lines 375–404.  Fuel is the exact
trip count `pending_depths.size() - 1 - current_depth` (the last depth is
finalization-only and never visited).  Each iteration binds
`threads[current_thread]` — out of bounds (`none`) when there are no lanes —
then pulls up to `depth_task_size` tasks off the current depth into one
per-depth batch of that worker, and hands off to the thread with the best
headroom score once the current one is saturated. -/
def getTasksLoop (cfgK : Nat) (counts : List Int) :
    Nat → List DepthTasks → List Nat → List ThreadTasks → Nat → Nat →
    Option (List DepthTasks × List ThreadTasks)
  | 0, pend, _, threads, _, _ => some (pend, threads)
  | fuel + 1, pend, taskCounts, threads, current_depth, current_thread =>
    if current_thread < threads.length then
      let dt := pend.getD current_depth {}
      if dt.tasks.isEmpty then
        getTasksLoop cfgK counts fuel pend taskCounts threads (current_depth + 1)
          current_thread
      else
        let taken := (dt.tasks.take cfgK).map NodeValue.node
        let pend2 := pend.set current_depth {dt with tasks := dt.tasks.drop cfgK}
        let th := threads.getD current_thread {}
        let th2 := if taken.isEmpty then th
                   else {th with tasks := th.tasks ++ [⟨taken, current_depth⟩]}
        let threads2 := threads.set current_thread th2
        let tc2 := taskCounts.set current_thread
          (taskCounts.getD current_thread 0 + taken.length)
        let next_thread := if cfgK ≤ tc2.getD current_thread 0
                           then find_best_thread counts tc2 else current_thread
        getTasksLoop cfgK counts fuel pend2 tc2 threads2 (current_depth + 1) next_thread
    else none

/-- `get_tasks()` of `node_manager.hpp`, lines 336–412.  Workers are
initialised with their identities, the walk starts at the thread with most
free slots, and empty workers are trimmed afterwards (identities kept).
An empty `pending_depths` wraps `size() - 1` around (`none`). -/
def get_tasks (s : Mgr S) : Option (List ThreadTasks × Mgr S) :=
  let threads0 := (List.range s.lanes.length).map
    (fun i => ({thread_id := i} : ThreadTasks))
  let counts := get_free_count s
  let taskCounts := List.replicate s.lanes.length 0
  let current_thread := get_thread_with_most_free counts
  if s.pending_depths.isEmpty then none
  else
    match getTasksLoop s.config.depth_task_size counts
        (s.pending_depths.length - 1) s.pending_depths taskCounts threads0 0
        current_thread with
    | none => none
    | some (pend2, threads2) =>
      some (threads2.filter (fun th => !th.tasks.isEmpty),
            {s with pending_depths := pend2})

/-! ### `finalize` -/

mutual
/-- `Node::award(value)` along a located path: every node strictly below the
root on the path gains `value` (`total_value` is a `uint32_t`).  The root
itself returns before adding. -/
def awardAux : AITree S → List Nat → Nat → AITree S
  | .node st tid tv nid cs, p, v =>
    let tv2 := (tv + v) % 4294967296
    match p with
    | [] => .node st tid tv2 nid cs
    | i :: rest => .node st tid tv2 nid (awardList cs i rest v)
def awardList : List (AITree S) → Nat → List Nat → Nat → List (AITree S)
  | [], _, _, _ => []
  | c :: cs, 0, rest, v => awardAux c rest v :: cs
  | c :: cs, i + 1, rest, v => c :: awardList cs i rest v
end

/-- `leaf->award(v)` seen from the root: the root is not awarded. -/
def awardPath (t : AITree S) (p : List Nat) (v : Nat) : AITree S :=
  match t, p with
  | t, [] => t
  | .node st tid tv nid cs, i :: rest => .node st tid tv nid (awardList cs i rest v)

/-- The award loop of `finalize`: the `k`-th popped leaf (0-indexed) is
awarded `award_size − k`; a stale leaf pointer is `none`. -/
def awardAll (rt : AITree S) : List NodeValue → Nat → Option (AITree S)
  | [], _ => some rt
  | nv :: rest, v =>
    match findPath nv.node rt with
    | none => none
    | some p => awardAll (awardPath rt p v) rest (v - 1)

/-- The canonical-order relation of `NodePruneCompare`
(`left->total_value > right->total_value` as "less"): ascending
`total_value`, the heap's top is the node with the *least* accumulated
score. -/
def tvLE (a b : AITree S) : Prop := a.total_value ≤ b.total_value

instance : DecidableRel (tvLE (S := S)) :=
  fun a b => inferInstanceAs (Decidable (a.total_value ≤ b.total_value))

instance : IsTotal (AITree S) tvLE := ⟨fun a b => Nat.le_total a.total_value b.total_value⟩

instance : IsTrans (AITree S) tvLE := ⟨fun _ _ _ h1 h2 => Nat.le_trans h1 h2⟩

/-- The beam-prune stage of `finalize` (`node_manager.hpp`, lines 462–497):
walk down the single-child chain to the shallowest node with more than one
child (or no child at all — then nothing is pruned); push all its children
onto the frontier heap; while more than
`prune_width > n ? 1 : prune_width` remain, pop and deallocate the child
with the least `total_value`; relink the survivors (in pop order, each
prepended) as the node's new child list.  Returns the new tree and the
dropped subtrees in deallocation order. -/
def beamPrune (pw : Nat) : AITree S → AITree S × List (AITree S)
  | .node st tid tv nid [] => (.node st tid tv nid [], [])
  | .node st tid tv nid [c] =>
    let r := beamPrune pw c
    (.node st tid tv nid [r.1], r.2)
  | .node st tid tv nid cs =>
    let sorted := pqPushAll tvLE [] cs
    let target := if pw > cs.length then 1 else pw
    (.node st tid tv nid (sorted.drop (cs.length - target)).reverse,
      sorted.take (cs.length - target))

/-- The pure swap-with-back removal loop (no per-removal effect), used by the
orphan sweep of this variant. -/
def sweepPure (b : α → Bool) : Nat → List α → Nat → List α
  | 0, l, _ => l
  | fuel + 1, l, i =>
    if h : i < l.length then
      if b (l.get ⟨i, h⟩) then
        sweepPure b fuel ((l.set i (l.getLast (List.ne_nil_of_length_pos
          (Nat.lt_of_le_of_lt (Nat.zero_le i) h)))).dropLast) i
      else sweepPure b fuel l (i + 1)
    else l

def sweepPureRun (b : α → Bool) (l : List α) : List α :=
  sweepPure b l.length l 0

/-- `cleanup_depth(index)` (lines 258–286): drop every task and transposition
entry whose node reads `thread_id == UINT32_MAX` (⟺ its identity is in
`freed`); the task heap goes through `export` / filter / `import`; emptied
buckets are erased. -/
def cleanupDepth (freed : List Nat) (dt : DepthTasks) : DepthTasks :=
  let kept := sweepPureRun (fun nv => freed.contains nv.node) (pqExport dt.tasks)
  let tt2 := (dt.transposition_table.map
    (fun pr => (pr.1, sweepPureRun (fun n2 => freed.contains n2) pr.2))).filter
    (fun pr => !pr.2.isEmpty)
  {tasks := pqImport nvLE kept, transposition_table := tt2}

/-- `finalize()` of `node_manager.hpp`, lines 446–500: pop the top
`award_width` leaves of the deepest bucket, award them `k, k−1, …, 1` up
their ancestor chains, re-push them, run the beam prune, deallocate the
dropped subtrees, and sweep all depths. -/
def finalize (s : Mgr S) : Option (Mgr S) :=
  match s.pending_depths.getLast? with
  | none => none
  | some lastDt =>
    if lastDt.tasks.isEmpty then some s
    else
      let top_k := lastDt.tasks.take s.config.award_width
      let rest := lastDt.tasks.drop s.config.award_width
      match s.root with
      | none => none
      | some rt0 =>
        match awardAll rt0 top_k top_k.length with
        | none => none
        | some rt1 =>
          let tasks2 := pqPushAll nvLE rest top_k
          let lastIdx := s.pending_depths.length - 1
          let pd1 := s.pending_depths.set lastIdx {lastDt with tasks := tasks2}
          let pr := beamPrune s.config.prune_width rt1
          let lf := deallocList s.lanes s.freed pr.2
          let pd2 := pd1.map (fun dt => cleanupDepth lf.2 dt)
          some {s with root := some pr.1, lanes := lf.1, freed := lf.2,
                       pending_depths := pd2}

/-- The single-child chain descent of the beam prune: the shallowest node
with a child count other than one. -/
def branchNode : AITree S → AITree S
  | .node _ _ _ _ [c] => branchNode c
  | t => t

/-- Length of the single-child chain above the branch node. -/
def chainLen : AITree S → Nat
  | .node _ _ _ _ [c] => chainLen c + 1
  | _ => 0

/-- Statement helper (spec side): the tree with the branch node's children
replaced. -/
def replaceChain : AITree S → List (AITree S) → AITree S
  | .node st tid tv nid [c], K => .node st tid tv nid [replaceChain c K]
  | .node st tid tv nid _, K => .node st tid tv nid K

end AiVar

/-! ## Claim theorems -/

/-! ### C1 — `best_next_move` on a freshly prepared tree -/

/-- A manager that has never been used (`NodeVar`). -/
def C1nodeMgr0 : NodeVar.Mgr Int :=
  {memory := ⟨[], none, 0, 0⟩, node_cursor := {}, depths := [],
   config := {depth := 3, node_limit := 100}}

/-- A manager that has never been used (`AiVar`). -/
def C1aiMgr0 : AiVar.Mgr Int :=
  {lanes := [], freed := [], pending_depths := [],
   config := {depth := 2, depth_task_size := 16, node_limit := 100000,
              prune_width := 1, award_width := 25},
   root := none, next_id := 0}

/-- C1: the claim says `best_next_move()` immediately after `prepare_root(s)`
returns none.  It does not: on a fresh tree depth 0's `unsearched` holds the
root, so `get_result` / `get_best_state` find it as the best pending node and
call `get_first_parent` on it — the `node` variant then dereferences the null
pointer `get_first_parent` returns for the root, and the `ai` variant's
`get_first_parent` recurses into the root's null parent.  Both are undefined
behaviour (`none`), not the in-band null result (`some none`). -/
theorem C1_fresh_best_next_move_is_null_deref :
    (NodeVar.prepare_tree C1nodeMgr0 (7 : Int)).map NodeVar.get_result
      = some none ∧
    AiVar.get_best_state (AiVar.reset C1aiMgr0 (7 : Int) 2) = none := by
  constructor
  · decide
  · decide

/-! ### C2 — `prune_depth_limit = 0` -/

/-- A `noir` manager at its node limit (4 live nodes, limit 4) with the first
populated depth (depth 1, two live nodes) differing from the deepest
populated depth (depth 2), and `prune_depth_limit = 0`. -/
def C2nodes : List (NoirVar.NodeRec Int) :=
  [⟨none, false, 0⟩, ⟨some 0, false, 1⟩, ⟨some 0, false, 2⟩, ⟨some 1, false, 3⟩]

def C2mgr : NoirVar.Mgr Int :=
  {memory := ⟨C2nodes, none, 4, 0⟩,
   node_cursor := {},
   depths := [⟨[], [0]⟩, ⟨[⟨1, 5⟩, ⟨2, 3⟩], []⟩, ⟨[⟨3, 7⟩], []⟩, ⟨[], []⟩],
   config := ⟨3, 0, 4⟩,
   total_searched := 0, total_collision := 0, tt := []}

/-- C2: the claim says `prune_depth_limit = 0` means "always eligible" and
that `prune` proceeds and returns true here.  In the only variant that has
`prune_depth_limit` (`include/node_manager.hpp`), `prune()` starts with
`if (config.prune_depth_limit == 0) return false;` — zero disables pruning
entirely: at the node limit with first ≠ last the prune is refused,
`get_task` gives up, and flipping the limit to 1 (everything else equal)
makes the very same state prune. -/
theorem C2_prune_depth_limit_zero_refuses_to_prune :
    NoirVar.NodeMemory.is_limit_reached C2mgr.memory C2mgr.config.node_limit = true ∧
    firstActiveAux C2mgr.depths 0 = some 1 ∧
    lastActiveAux C2mgr.depths = some 2 ∧
    NoirVar.prune C2mgr = some (false, C2mgr) ∧
    NoirVar.get_task C2mgr = some (none, C2mgr) ∧
    (NoirVar.prune {C2mgr with
      config := {C2mgr.config with prune_depth_limit := 1}}).map Prod.fst
      = some true := by
  refine ⟨by decide, by decide, by decide, by decide, by decide, by decide⟩

/-! ### C3 — `get_parent_at` -/

/-- A two-node arena: node 0 is a child of node 1 (the root), in each
single-threaded variant's arena type. -/
def C3nodes : List (NodeVar.NodeRec Int) := [⟨some 1, false, 10⟩, ⟨none, false, 20⟩]

def C3noirNodes : List (NoirVar.NodeRec Int) := [⟨some 1, false, 10⟩, ⟨none, false, 20⟩]

/-- C3: the claim says `get_parent_at(k)` returns the ancestor exactly `k`
levels up.  The `node_manager_new.hpp` version recurses on `this` instead of
`parent` and returns the node itself for every `k`; the
`include/node_manager.hpp` version walks correctly.  Here node 0 has parent
node 1, and `get_parent_at 1` returns node 0 itself in the `node` variant
(the `noir` variant returns node 1). -/
theorem C3_get_parent_at_never_walks_up :
    (C3nodes.getD 0 default).parent = some 1 ∧
    NodeVar.get_parent_at C3nodes 0 1 = some 0 ∧
    NoirVar.get_parent_at C3noirNodes 0 1 = some 1 ∧
    (∀ n : Nat, NodeVar.get_parent_at C3nodes 0 n = some 0) := by
  refine ⟨by decide, by decide, by decide, ?_⟩
  intro n
  induction n with
  | zero => rfl
  | succ n ih => simpa [NodeVar.get_parent_at] using ih

/-! ### C5 — `try_advance` -/

/-- A tree of three nodes, all in lane 0: the root (nid 0) with children of
`total_value` 5 (nid 1, iterated first) and 3 (nid 2). -/
def C5tree : AiVar.AITree Int :=
  .node 0 0 0 0 [.node 1 0 5 1 [], .node 2 0 3 2 []]

def C5mgr : AiVar.Mgr Int :=
  {lanes := [⟨3, 0⟩], freed := [], pending_depths := [{}, {}], config := {},
   root := some C5tree, next_id := 3}

/-- C5: the claim says `advance_root` deallocates the subtree of *every*
other root child.  The scan only deallocates a provisional best when a
strictly better child supersedes it: here child nid 1 (score 5) is iterated
first and wins, so child nid 2 (score 3) is never deallocated — after the
call only the old root (nid 0) has been freed (`freed = [0]`, one slot on
the free lists out of three), while nid 2 is gone from the tree but still
allocated. -/
theorem C5_try_advance_leaks_losing_sibling :
    (AiVar.try_advance C5mgr).map (fun res =>
      (res.1, res.2.root.map AiVar.AITree.nid, res.2.freed,
       AiVar.totalFree res.2.lanes, AiVar.totalStorage res.2.lanes))
      = some (true, some 1, [0], 1, 3) := by
  decide

/-! ### C8 — `export_container` / `import_container` round trip -/

/-- C8: exporting the backing container and importing it back unmodified
yields a queue with the same (and a present) top element. -/
theorem C8_export_import_same_top {α : Type} (r : α → α → Prop) [DecidableRel r]
    [IsTotal α r] [IsTrans α r] (l : List α) (hl : l.Sorted r) (hne : l ≠ []) :
    pqTop? (pqImport r (pqExport l)) = pqTop? l ∧ (pqTop? l).isSome := by
  constructor
  · simp only [pqImport, pqExport, pqTop?]
    rw [hl.insertionSort_eq]
  · simp only [pqTop?, Option.isSome_iff_exists]
    cases l with
    | nil => exact absurd rfl hne
    | cons a t => exact ⟨a, rfl⟩

/-- Witness for C8 at a concrete two-element score queue. -/
theorem C8_export_import_same_top_witness :
    ([⟨1, 5⟩, ⟨2, 3⟩] : List NodeValue).Sorted nvLE ∧
    ([⟨1, 5⟩, ⟨2, 3⟩] : List NodeValue) ≠ [] ∧
    (pqTop? (pqImport nvLE (pqExport [⟨1, 5⟩, ⟨2, 3⟩])) =
        pqTop? ([⟨1, 5⟩, ⟨2, 3⟩] : List NodeValue) ∧
      (pqTop? ([⟨1, 5⟩, ⟨2, 3⟩] : List NodeValue)).isSome) :=
  ⟨by decide, by decide,
    C8_export_import_same_top nvLE [⟨1, 5⟩, ⟨2, 3⟩] (by decide) (by decide)⟩

/-! ### C4 — transposition dedup on child submission -/

/-- A `noir` manager with the root (state 0) registered in the global table
under hash 0, and a freshly allocated child (node 1, state 1) about to be
verified under a constant hash function.  The collision predicate (state
equality) is false for the pair. -/
def C4mgr : NoirVar.Mgr Int :=
  {memory := ⟨[⟨none, false, 0⟩, ⟨some 0, false, 1⟩], none, 2, 0⟩,
   node_cursor := {cursor := some 0, allocated_node := some 1, depth := 0},
   depths := [⟨[], [0]⟩, ⟨[], []⟩],
   config := ⟨1, 0, 100⟩,
   total_searched := 0, total_collision := 0, tt := [(0, 0)]}

/-- C4 counterexample: the claim says a submitted child is dropped only when
an existing node in the hash bucket satisfies the collision predicate, and
that otherwise it is kept.  In `include/node_manager.hpp` the states 0 and 1
do not collide (equality is false), yet `verify_state` drops the child on
the bare hash match: it returns false, bumps the collision counter and
deallocates the handle. -/
theorem C4_counterexample :
    ((0 : Int) == (1 : Int)) = false ∧
    (NoirVar.verify_state (fun _ => 0) C4mgr).1 = false ∧
    (NoirVar.verify_state (fun _ => 0) C4mgr).2.total_collision = 1 ∧
    (NoirVar.verify_state (fun _ => 0) C4mgr).2.memory.free_count = 1 := by
  decide

theorem insertAssoc_lookup (l : List (Nat × List Nat)) (k : Nat) (v : List Nat) :
    (AiVar.insertAssoc l k v).lookup k = some v := by
  induction l with
  | nil => simp [AiVar.insertAssoc, List.lookup]
  | cons p rest ih =>
    obtain ⟨k2, v2⟩ := p
    simp only [AiVar.insertAssoc]
    by_cases hk : k2 = k
    · simp [hk, List.lookup]
    · simp only [if_neg hk, List.lookup]
      have : (k == k2) = false := by
        simp [Ne.symm hk]
      rw [this]
      exact ih

theorem getD_set_self {α : Type} (l : List α) (i : Nat) (a d : α) (h : i < l.length) :
    (l.set i a).getD i d = a := by
  rw [List.getD_eq_getElem?_getD, List.getElem?_set_self (by simpa using h)]
  rfl

/-- C4 amended: on child submission the two variants behave differently, and
neither matches the claim in full.  `include/node_manager.hpp`
(`verify_state`): the table is global and hash-only — the child is dropped
iff its hash is already bound (the collision predicate is never consulted);
on a drop the handle is deallocated, the collision counter is incremented
and the table is unchanged; otherwise the hash is bound to the child and
nothing else changes (the push onto `unsearched[d]` happens separately in
`report_result`).  `node_manager.hpp` (`push_new_node`): the depth-`d`
bucket is scanned with the collision predicate — on a match the child is
dropped with *no* further effect (no deallocation, no counter exists);
otherwise it is appended to the bucket and pushed onto `unsearched[d]`. -/
theorem C4_amended :
    (∀ (hashF : Int → Nat) (s : NoirVar.Mgr Int) (nid : Nat),
      s.node_cursor.allocated_node = some nid →
      (s.memory.node_storage.getD nid default).pruned = false →
      (((s.tt.lookup (hashF (s.memory.node_storage.getD nid default).state)).isSome →
        (NoirVar.verify_state hashF s).1 = false ∧
        (NoirVar.verify_state hashF s).2.total_collision = s.total_collision + 1 ∧
        (NoirVar.verify_state hashF s).2.memory.free_count = s.memory.free_count + 1 ∧
        (NoirVar.verify_state hashF s).2.tt = s.tt) ∧
      ((s.tt.lookup (hashF (s.memory.node_storage.getD nid default).state)) = none →
        (NoirVar.verify_state hashF s).1 = true ∧
        (NoirVar.verify_state hashF s).2.tt
          = s.tt ++ [(hashF (s.memory.node_storage.getD nid default).state, nid)] ∧
        (NoirVar.verify_state hashF s).2.memory = s.memory ∧
        (NoirVar.verify_state hashF s).2.total_collision = s.total_collision))) ∧
    (∀ (hashF : Int → Nat) (collisionF : Int → Int → Bool) (s : AiVar.Mgr Int)
      (depth nid : Nat) (value : Int) (stNew : Int),
      depth < s.pending_depths.length →
      AiVar.stateOfNid s nid = some stNew →
      ((AiVar.anyCollide s collisionF stNew
          (((s.pending_depths.getD depth {}).transposition_table.lookup
            (hashF stNew)).getD []) = some true →
        AiVar.push_new_node hashF collisionF s depth nid value = some s) ∧
      (AiVar.anyCollide s collisionF stNew
          (((s.pending_depths.getD depth {}).transposition_table.lookup
            (hashF stNew)).getD []) = some false →
        ∃ s2, AiVar.push_new_node hashF collisionF s depth nid value = some s2 ∧
          s2.lanes = s.lanes ∧ s2.freed = s.freed ∧
          (s2.pending_depths.getD depth {}).transposition_table.lookup (hashF stNew)
            = some ((((s.pending_depths.getD depth {}).transposition_table.lookup
                (hashF stNew)).getD []) ++ [nid]) ∧
          (s2.pending_depths.getD depth {}).tasks
            = pqPush nvLE (s.pending_depths.getD depth {}).tasks ⟨nid, value⟩))) := by
  constructor
  · intro hashF s nid hal hpr
    have hprn : ¬((s.memory.node_storage.getD nid default).pruned = true) := by
      rw [hpr]; simp
    constructor
    · intro hlk
      rcases hsome : s.tt.lookup (hashF (s.memory.node_storage.getD nid default).state)
          with _ | v
      · rw [hsome] at hlk; exact absurd hlk (by simp)
      · simp only [NoirVar.verify_state, hal, if_neg hprn, hsome,
          NoirVar.NodeMemory.deallocate]
        simp
    · intro hnone
      simp only [NoirVar.verify_state, hal, if_neg hprn, hnone]
      simp
  · intro hashF collisionF s depth nid value stNew hd hst
    have hgd : s.pending_depths.getD depth {} = s.pending_depths[depth] := by
      rw [List.getD_eq_getElem?_getD, List.getElem?_eq_getElem hd]
      rfl
    constructor
    · intro hcol
      rw [hgd] at hcol
      simp [AiVar.push_new_node, hd, hst, hcol]
    · intro hcol
      rw [hgd] at hcol
      set dtNew : AiVar.DepthTasks :=
        ⟨pqPush nvLE s.pending_depths[depth].tasks ⟨nid, value⟩,
         AiVar.insertAssoc s.pending_depths[depth].transposition_table (hashF stNew)
           (((s.pending_depths[depth].transposition_table.lookup
             (hashF stNew)).getD []) ++ [nid])⟩ with hdt
      set pdNew := s.pending_depths.set depth dtNew with hpd
      have hpush : AiVar.push_new_node hashF collisionF s depth nid value
          = some {s with pending_depths := pdNew} := by
        simp [AiVar.push_new_node, hd, hst, hcol, hdt, hpd]
      refine ⟨_, hpush, rfl, rfl, ?_, ?_⟩
      · rw [hgd]
        show (pdNew.getD depth {}).transposition_table.lookup (hashF stNew) = _
        rw [hpd, getD_set_self _ _ _ _ (by simpa using hd), hdt]
        exact insertAssoc_lookup _ _ _
      · rw [hgd]
        show (pdNew.getD depth {}).tasks = _
        rw [hpd, getD_set_self _ _ _ _ (by simpa using hd), hdt]

/-- An `ai` manager for the C4 witness: root (nid 0, state 0) with children
nid 1 (state 5) and nid 2 (state 6); node 1 is registered at depth 1 under
hash 3. -/
def C4aiMgr : AiVar.Mgr Int :=
  {lanes := [⟨3, 0⟩], freed := [],
   pending_depths := [{}, ⟨[⟨1, 9⟩], [(3, [1])]⟩, {}],
   config := {depth := 2, depth_task_size := 16, node_limit := 100000,
              prune_width := 1, award_width := 25},
   root := some (.node 0 0 0 0 [.node 6 0 0 2 [], .node 5 0 0 1 []]),
   next_id := 3}

/-- Witness for C4 at concrete inputs: the `noir` half at `C4mgr` (hash hit)
and at `C4mgr` with an empty table (hash miss); the `ai` half at `C4aiMgr`
submitting node 2 (state 6) at depth 1 under a constant hash — state 5 is in
the bucket and equality is the collision predicate, so the scan misses and
node 2 is appended and pushed. -/
theorem C4_amended_witness :
    (C4mgr.node_cursor.allocated_node = some 1 ∧
      (C4mgr.memory.node_storage.getD 1 default).pruned = false ∧
      (C4mgr.tt.lookup ((fun _ => 0) (C4mgr.memory.node_storage.getD 1 default).state)).isSome ∧
      ((NoirVar.verify_state (fun _ => 0) C4mgr).1 = false ∧
        (NoirVar.verify_state (fun _ => 0) C4mgr).2.total_collision
          = C4mgr.total_collision + 1 ∧
        (NoirVar.verify_state (fun _ => 0) C4mgr).2.memory.free_count
          = C4mgr.memory.free_count + 1 ∧
        (NoirVar.verify_state (fun _ => 0) C4mgr).2.tt = C4mgr.tt)) ∧
    ((1 : Nat) < C4aiMgr.pending_depths.length ∧
      AiVar.stateOfNid C4aiMgr 2 = some 6 ∧
      AiVar.anyCollide C4aiMgr (fun a b => a == b) 6
        (((C4aiMgr.pending_depths.getD 1 {}).transposition_table.lookup
          ((fun _ => 3) (6 : Int))).getD []) = some false ∧
      ∃ s2, AiVar.push_new_node (fun _ => 3) (fun a b => a == b) C4aiMgr 1 2 4 = some s2 ∧
        s2.lanes = C4aiMgr.lanes ∧ s2.freed = C4aiMgr.freed ∧
        (s2.pending_depths.getD 1 {}).transposition_table.lookup ((fun _ => 3) (6 : Int))
          = some ((((C4aiMgr.pending_depths.getD 1 {}).transposition_table.lookup
              ((fun _ => 3) (6 : Int))).getD []) ++ [2]) ∧
        (s2.pending_depths.getD 1 {}).tasks
          = pqPush nvLE (C4aiMgr.pending_depths.getD 1 {}).tasks ⟨2, 4⟩) := by
  refine ⟨⟨by decide, by decide, by decide, ?_⟩, ⟨by decide, by decide, by decide, ?_⟩⟩
  · exact ((C4_amended.1 (fun _ => 0) C4mgr 1 (by decide) (by decide)).1 (by decide))
  · exact ((C4_amended.2 (fun _ => 3) (fun a b => a == b) C4aiMgr 1 2 4 6
      (by decide) (by decide)).2 (by decide))

/-! ### C6 — beam finalization at the branching node -/

/-- A root (the shallowest node with more than one child) with children of
`total_value` 5 and 3. -/
def C6tree : AiVar.AITree Int :=
  .node 0 0 0 0 [.node 1 0 5 1 [], .node 2 0 3 2 []]

/-- C6 counterexample: the claim says that when the branching node has
*fewer or equal* children than `prune_width`, exactly 1 is kept.  With
`prune_width = 2` and exactly 2 children the code computes
`prune_width > frontier.size() ? 1 : prune_width` = 2 and keeps both —
nothing is deallocated. -/
theorem C6_counterexample :
    (AiVar.branchNode C6tree).children.length = 2 ∧
    (AiVar.beamPrune 2 C6tree).1.children.length = 2 ∧
    (AiVar.beamPrune 2 C6tree).2.length = 0 := by
  refine ⟨by decide, ?_, ?_⟩ <;>
    simp [AiVar.beamPrune, AiVar.AITree.children, pqPushAll, pqPush,
      List.orderedInsert, AiVar.tvLE, AiVar.AITree.total_value, C6tree]

theorem C6_base (st : Int) (tid tv nid : Nat) (c1 c2 : AiVar.AITree Int)
    (rest : List (AiVar.AITree Int)) (pw : Nat)
    (hb : 2 ≤ (AiVar.branchNode (.node st tid tv nid (c1 :: c2 :: rest))).children.length) :
    ∃ kept dropped,
      AiVar.beamPrune pw (.node st tid tv nid (c1 :: c2 :: rest))
        = (AiVar.replaceChain (.node st tid tv nid (c1 :: c2 :: rest)) kept.reverse,
           dropped) ∧
      kept.length = (if pw >
          (AiVar.branchNode (.node st tid tv nid (c1 :: c2 :: rest))).children.length
        then 1 else pw) ∧
      List.Perm (kept ++ dropped)
        (AiVar.branchNode (.node st tid tv nid (c1 :: c2 :: rest))).children ∧
      (∀ k ∈ kept, ∀ d ∈ dropped, d.total_value ≤ k.total_value) := by
  have hbr : AiVar.branchNode (AiVar.AITree.node st tid tv nid (c1 :: c2 :: rest))
      = AiVar.AITree.node st tid tv nid (c1 :: c2 :: rest) := by
    simp [AiVar.branchNode]
  rw [hbr]
  set cs := c1 :: c2 :: rest with hcs
  set sorted := pqPushAll AiVar.tvLE [] cs with hsorted
  have hperm0 : List.Perm sorted cs := by
    simpa using pqPushAll_perm AiVar.tvLE [] cs
  have hsort : List.Pairwise AiVar.tvLE sorted :=
    pqPushAll_sorted AiVar.tvLE [] cs (List.sorted_nil)
  have hN : sorted.length = cs.length := hperm0.length_eq
  set target := if pw > cs.length then 1 else pw with htarget
  have htle : target ≤ cs.length := by
    rw [htarget]
    by_cases hgt : pw > cs.length
    · rw [if_pos hgt]
      simp [hcs]
    · rw [if_neg hgt]
      omega
  refine ⟨sorted.drop (cs.length - target), sorted.take (cs.length - target), ?_, ?_, ?_, ?_⟩
  · show AiVar.beamPrune pw (AiVar.AITree.node st tid tv nid cs) = _
    rw [hcs]
    simp only [AiVar.beamPrune, AiVar.replaceChain]
  · rw [List.length_drop, hN]
    show cs.length - (cs.length - target) = (if pw > cs.length then 1 else pw)
    rw [← htarget]
    omega
  · have h1 : List.Perm (sorted.drop (cs.length - target) ++ sorted.take (cs.length - target))
        (sorted.take (cs.length - target) ++ sorted.drop (cs.length - target)) :=
      List.perm_append_comm
    rw [List.take_append_drop] at h1
    show List.Perm (sorted.drop (cs.length - target) ++ sorted.take (cs.length - target)) cs
    exact h1.trans hperm0
  · intro k hk d hd
    have hp : List.Pairwise AiVar.tvLE
        (sorted.take (cs.length - target) ++ sorted.drop (cs.length - target)) := by
      rw [List.take_append_drop]
      exact hsort
    exact (List.pairwise_append.mp hp).2.2 d hd k hk

theorem C6_aux : ∀ (n : Nat) (t : AiVar.AITree Int) (pw : Nat),
    AiVar.chainLen t ≤ n →
    2 ≤ (AiVar.branchNode t).children.length →
    ∃ kept dropped,
      AiVar.beamPrune pw t = (AiVar.replaceChain t kept.reverse, dropped) ∧
      kept.length = (if pw > (AiVar.branchNode t).children.length then 1 else pw) ∧
      List.Perm (kept ++ dropped) (AiVar.branchNode t).children ∧
      (∀ k ∈ kept, ∀ d ∈ dropped, d.total_value ≤ k.total_value) := by
  intro n
  induction n with
  | zero =>
    intro t pw hc hb
    rcases t with ⟨st, tid, tv, nid, _ | ⟨c1, _ | ⟨c2, rest⟩⟩⟩
    · simp [AiVar.branchNode, AiVar.AITree.children] at hb
    · simp [AiVar.chainLen] at hc
    · exact C6_base st tid tv nid c1 c2 rest pw hb
  | succ n ih =>
    intro t pw hc hb
    rcases t with ⟨st, tid, tv, nid, _ | ⟨c1, _ | ⟨c2, rest⟩⟩⟩
    · simp [AiVar.branchNode, AiVar.AITree.children] at hb
    · have hc1 : AiVar.chainLen c1 ≤ n := by
        simp only [AiVar.chainLen] at hc
        omega
      have hb1 : 2 ≤ (AiVar.branchNode c1).children.length := by
        simpa [AiVar.branchNode] using hb
      obtain ⟨kept, dropped, heq, hlen, hperm, hcross⟩ := ih c1 pw hc1 hb1
      refine ⟨kept, dropped, ?_, ?_, ?_, hcross⟩
      · simp only [AiVar.beamPrune, heq, AiVar.replaceChain]
      · simpa [AiVar.branchNode] using hlen
      · simpa [AiVar.branchNode] using hperm
    · exact C6_base st tid tv nid c1 c2 rest pw hb

/-- C6 amended: at the shallowest node with more than one child, `finalize`'s
beam prune keeps `prune_width` children of highest `accumulated_score` and
deallocates every other child's subtree, **except** that the `1`-survivor
fallback applies only when the node has *strictly fewer* children than
`prune_width`; when the child count equals `prune_width`, all of them are
kept (and nothing is deallocated). -/
theorem C6_beam_prune_keeps_top_children (t : AiVar.AITree Int) (pw : Nat)
    (hb : 2 ≤ (AiVar.branchNode t).children.length) :
    ∃ kept dropped,
      AiVar.beamPrune pw t = (AiVar.replaceChain t kept.reverse, dropped) ∧
      kept.length = (if pw > (AiVar.branchNode t).children.length then 1 else pw) ∧
      List.Perm (kept ++ dropped) (AiVar.branchNode t).children ∧
      (∀ k ∈ kept, ∀ d ∈ dropped, d.total_value ≤ k.total_value) :=
  C6_aux (AiVar.chainLen t) t pw (Nat.le_refl _) hb

/-- Witness for C6 at a chain of one node over a branch with three children
(scores 5, 3, 7) and `prune_width = 1`. -/
theorem C6_beam_prune_keeps_top_children_witness :
    2 ≤ (AiVar.branchNode (AiVar.AITree.node (0 : Int) 0 0 9
        [.node 1 0 5 1 [], .node 2 0 3 2 [], .node 3 0 7 3 []])).children.length ∧
    ∃ kept dropped,
      AiVar.beamPrune 1 (AiVar.AITree.node (0 : Int) 0 0 9
          [.node 1 0 5 1 [], .node 2 0 3 2 [], .node 3 0 7 3 []])
        = (AiVar.replaceChain (AiVar.AITree.node (0 : Int) 0 0 9
            [.node 1 0 5 1 [], .node 2 0 3 2 [], .node 3 0 7 3 []]) kept.reverse,
           dropped) ∧
      kept.length = (if 1 > (AiVar.branchNode (AiVar.AITree.node (0 : Int) 0 0 9
          [.node 1 0 5 1 [], .node 2 0 3 2 [], .node 3 0 7 3 []])).children.length
        then 1 else 1) ∧
      List.Perm (kept ++ dropped) (AiVar.branchNode (AiVar.AITree.node (0 : Int) 0 0 9
          [.node 1 0 5 1 [], .node 2 0 3 2 [], .node 3 0 7 3 []])).children ∧
      (∀ k ∈ kept, ∀ d ∈ dropped, d.total_value ≤ k.total_value) :=
  ⟨by decide, C6_beam_prune_keeps_top_children _ 1 (by decide)⟩

/-! ### Helper lemmas about the `noir` prune path (used by C7 and C10) -/

theorem exists_ne_of_nodup {α : Type} (l : List α) (hnd : l.Nodup) (hlen : 2 ≤ l.length)
    (v : α) : ∃ x ∈ l, x ≠ v := by
  match l, hlen with
  | x1 :: x2 :: rest, _ =>
    by_cases h1 : x1 = v
    · subst h1
      have h12 : x1 ≠ x2 := by
        have := (List.nodup_cons.mp hnd).1
        intro hx; exact this (hx ▸ List.mem_cons_self x2 rest)
      exact ⟨x2, by simp, fun hx => h12 hx.symm⟩
    · exact ⟨x1, by simp, h1⟩

theorem NoirVar.dealloc_free (m : NoirVar.NodeMemory Int) (id : Nat) :
    (m.deallocate id).free_count = m.free_count + 1 := rfl

theorem NoirVar.dealloc_len (m : NoirVar.NodeMemory Int) (id : Nat) :
    (m.deallocate id).node_storage.length = m.node_storage.length := by
  simp [NoirVar.NodeMemory.deallocate]


/-- Facts about `noir` `filter`: storage size preserved, free counter
monotone (strictly, once any container element differs from the survivor),
kept searched entries come from the old searched list. -/
theorem NoirVar.filter_facts (d : NodeDepth) (surv : Option Nat)
    (m : NoirVar.NodeMemory Int) {d1 : NodeDepth} {m1 : NoirVar.NodeMemory Int}
    (heq : NoirVar.filter d surv m = some (d1, m1)) :
    m1.node_storage.length = m.node_storage.length ∧
    m.free_count ≤ m1.free_count ∧
    (∀ id ∈ d1.searched, id ∈ d.searched) ∧
    (∀ x, (x ∈ d.unsearched.map NodeValue.node ∨ x ∈ d.searched) → some x ≠ surv →
      m.free_count < m1.free_count) := by
  by_cases hemp : d.emptyb
  · simp only [NoirVar.filter, hemp, if_true, Option.some.injEq, Prod.mk.injEq] at heq
    obtain ⟨rfl, rfl⟩ := heq
    simp only [NodeDepth.emptyb, Bool.and_eq_true, List.isEmpty_iff] at hemp
    refine ⟨rfl, le_refl _, fun id h => h, ?_⟩
    intro x hx
    rw [hemp.1, hemp.2] at hx
    simp at hx
  · by_cases hue : d.unsearched.isEmpty
    · rcases hss : sweepRun (NoirVar.filtBadS surv) NoirVar.effS m d.searched
          with _ | ⟨m2, s1, remS⟩
      · simp only [NoirVar.filter, hemp, Bool.not_eq_true, Bool.false_eq_true, if_false, hue, if_true, hss, Option.bind_eq_bind, Option.some_bind, Option.none_bind] at heq
        exact Option.noConfusion heq
      · simp only [NoirVar.filter, hemp, Bool.not_eq_true, Bool.false_eq_true, if_false, hue,
          if_true, hss, Option.bind_eq_bind, Option.some_bind, Option.some.injEq,
          Prod.mk.injEq] at heq
        obtain ⟨hd1, hm1⟩ := heq
        subst hm1
        have hfree := sweepGo_measure (NoirVar.filtBadS surv) NoirVar.effS
          (fun t : NoirVar.NodeMemory Int => t.free_count) 1
          (fun t id => NoirVar.dealloc_free t id) d.searched.length m d.searched 0 hss
        have hlen := sweepGo_measure (NoirVar.filtBadS surv) NoirVar.effS
          (fun t : NoirVar.NodeMemory Int => t.node_storage.length) 0
          (fun t id => NoirVar.dealloc_len t id) d.searched.length m d.searched 0 hss
        have hperm := sweepGo_perm d.searched.length m d.searched 0 (by omega) hss
        dsimp only at hfree hlen
        refine ⟨by omega, by omega, ?_, ?_⟩
        · intro id hid
          rw [← hd1] at hid
          exact hperm.subset (List.mem_append.mpr (Or.inl hid))
        · intro x hx hxs
          rcases hx with hxu | hxs2
          · rw [List.isEmpty_iff] at hue
            rw [hue] at hxu
            simp at hxu
          · have hss2 : sweepRun
                (fun (_ : NoirVar.NodeMemory Int) (id : Nat) =>
                  some ((fun id2 => decide (some id2 ≠ surv)) id))
                NoirVar.effS m d.searched = some (m2, s1, remS) := hss
            have hr : x ∈ remS := sweepRun_removes_bad
              (fun id => decide (some id ≠ surv)) m d.searched hss2 hxs2 (by simp [hxs])
            have h1 : 1 ≤ remS.length := List.length_pos.mpr (List.ne_nil_of_mem hr)
            omega
    · rcases hsu : sweepRun (NoirVar.filtBadU surv) NoirVar.effU m (pqExport d.unsearched)
          with _ | ⟨mA, keptU, remU⟩
      · simp only [NoirVar.filter, hemp, Bool.not_eq_true, Bool.false_eq_true, if_false, hue, hsu, Option.bind_eq_bind, Option.some_bind, Option.none_bind] at heq
        exact Option.noConfusion heq
      · rcases hss : sweepRun (NoirVar.filtBadS surv) NoirVar.effS mA d.searched
            with _ | ⟨m2, s1, remS⟩
        · simp only [NoirVar.filter, hemp, Bool.not_eq_true, Bool.false_eq_true, if_false, hue,
            hsu, hss, Option.bind_eq_bind, Option.some_bind, Option.none_bind] at heq
          exact Option.noConfusion heq
        · simp only [NoirVar.filter, hemp, Bool.not_eq_true, Bool.false_eq_true, if_false, hue,
            hsu, hss, Option.bind_eq_bind, Option.some_bind, Option.none_bind,
            Option.some.injEq, Prod.mk.injEq] at heq
          obtain ⟨hd1, hm1⟩ := heq
          subst hm1
          have hfreeA := sweepGo_measure (NoirVar.filtBadU surv) NoirVar.effU
            (fun t : NoirVar.NodeMemory Int => t.free_count) 1
            (fun t nv => NoirVar.dealloc_free t nv.node) (pqExport d.unsearched).length m
            (pqExport d.unsearched) 0 hsu
          have hlenA := sweepGo_measure (NoirVar.filtBadU surv) NoirVar.effU
            (fun t : NoirVar.NodeMemory Int => t.node_storage.length) 0
            (fun t nv => NoirVar.dealloc_len t nv.node) (pqExport d.unsearched).length m
            (pqExport d.unsearched) 0 hsu
          have hpermU := sweepGo_perm (pqExport d.unsearched).length m
            (pqExport d.unsearched) 0 (by omega) hsu
          have hfreeS := sweepGo_measure (NoirVar.filtBadS surv) NoirVar.effS
            (fun t : NoirVar.NodeMemory Int => t.free_count) 1
            (fun t id => NoirVar.dealloc_free t id) d.searched.length mA d.searched 0 hss
          have hlenS := sweepGo_measure (NoirVar.filtBadS surv) NoirVar.effS
            (fun t : NoirVar.NodeMemory Int => t.node_storage.length) 0
            (fun t id => NoirVar.dealloc_len t id) d.searched.length mA d.searched 0 hss
          have hpermS := sweepGo_perm d.searched.length mA d.searched 0 (by omega) hss
          dsimp only at hfreeA hlenA hfreeS hlenS
          refine ⟨by omega, by omega, ?_, ?_⟩
          · intro id hid
            rw [← hd1] at hid
            exact hpermS.subset (List.mem_append.mpr (Or.inl hid))
          · intro x hx hxs
            rcases hx with hxu | hxs2
            · obtain ⟨nv, hnv, hnvx⟩ := List.mem_map.mp hxu
              have hsu2 : sweepRun
                  (fun (_ : NoirVar.NodeMemory Int) (nv2 : NodeValue) =>
                    some ((fun nv3 : NodeValue => decide (some nv3.node ≠ surv)) nv2))
                  NoirVar.effU m (pqExport d.unsearched) = some (mA, keptU, remU) := hsu
              have hr : nv ∈ remU := sweepRun_removes_bad
                (fun nv2 => decide (some nv2.node ≠ surv)) m (pqExport d.unsearched)
                hsu2 hnv (by simp [pqExport, hnvx, hxs])
              have h1 : 1 ≤ remU.length := List.length_pos.mpr (List.ne_nil_of_mem hr)
              omega
            · have hss2 : sweepRun
                  (fun (_ : NoirVar.NodeMemory Int) (id : Nat) =>
                    some ((fun id2 => decide (some id2 ≠ surv)) id))
                  NoirVar.effS mA d.searched = some (m2, s1, remS) := hss
              have hr : x ∈ remS := sweepRun_removes_bad
                (fun id => decide (some id ≠ surv)) mA d.searched hss2 hxs2 (by simp [hxs])
              have h1 : 1 ≤ remS.length := List.length_pos.mpr (List.ne_nil_of_mem hr)
              omega

/-- Facts about `noir` `cleanup`: storage size preserved, free counter
monotone, kept searched entries come from the old searched list. -/
theorem NoirVar.cleanup_facts (d : NodeDepth) (m : NoirVar.NodeMemory Int)
    {d1 : NodeDepth} {m1 : NoirVar.NodeMemory Int}
    (heq : NoirVar.cleanup d m = some (d1, m1)) :
    m1.node_storage.length = m.node_storage.length ∧
    m.free_count ≤ m1.free_count ∧
    (∀ id ∈ d1.searched, id ∈ d.searched) := by
  by_cases hemp : d.emptyb
  · simp only [NoirVar.cleanup, hemp, if_true, Option.some.injEq, Prod.mk.injEq] at heq
    obtain ⟨rfl, rfl⟩ := heq
    exact ⟨rfl, le_refl _, fun id h => h⟩
  · by_cases hue : d.unsearched.isEmpty
    · rcases hss : sweepRun NoirVar.cleanBadS NoirVar.effS m d.searched
          with _ | ⟨m2, s1, remS⟩
      · simp only [NoirVar.cleanup, hemp, Bool.not_eq_true, Bool.false_eq_true, if_false,
          hue, if_true, hss, Option.bind_eq_bind, Option.some_bind, Option.none_bind] at heq
        exact Option.noConfusion heq
      · simp only [NoirVar.cleanup, hemp, Bool.not_eq_true, Bool.false_eq_true, if_false,
          hue, if_true, hss, Option.bind_eq_bind, Option.some_bind, Option.some.injEq,
          Prod.mk.injEq] at heq
        obtain ⟨hd1, hm1⟩ := heq
        subst hm1
        have hfree := sweepGo_measure NoirVar.cleanBadS NoirVar.effS
          (fun t : NoirVar.NodeMemory Int => t.free_count) 1
          (fun t id => NoirVar.dealloc_free t id) d.searched.length m d.searched 0 hss
        have hlen := sweepGo_measure NoirVar.cleanBadS NoirVar.effS
          (fun t : NoirVar.NodeMemory Int => t.node_storage.length) 0
          (fun t id => NoirVar.dealloc_len t id) d.searched.length m d.searched 0 hss
        have hperm := sweepGo_perm d.searched.length m d.searched 0 (by omega) hss
        dsimp only at hfree hlen
        refine ⟨by omega, by omega, ?_⟩
        intro id hid
        rw [← hd1] at hid
        exact hperm.subset (List.mem_append.mpr (Or.inl hid))
    · rcases hsu : sweepRun NoirVar.cleanBadU NoirVar.effU m (pqExport d.unsearched)
          with _ | ⟨mA, keptU, remU⟩
      · simp only [NoirVar.cleanup, hemp, Bool.not_eq_true, Bool.false_eq_true, if_false,
          hue, hsu, Option.bind_eq_bind, Option.some_bind, Option.none_bind] at heq
        exact Option.noConfusion heq
      · rcases hss : sweepRun NoirVar.cleanBadS NoirVar.effS mA d.searched
            with _ | ⟨m2, s1, remS⟩
        · simp only [NoirVar.cleanup, hemp, Bool.not_eq_true, Bool.false_eq_true, if_false,
            hue, hsu, hss, Option.bind_eq_bind, Option.some_bind, Option.none_bind] at heq
          exact Option.noConfusion heq
        · simp only [NoirVar.cleanup, hemp, Bool.not_eq_true, Bool.false_eq_true, if_false,
            hue, hsu, hss, Option.bind_eq_bind, Option.some_bind, Option.none_bind,
            Option.some.injEq, Prod.mk.injEq] at heq
          obtain ⟨hd1, hm1⟩ := heq
          subst hm1
          have hfreeA := sweepGo_measure NoirVar.cleanBadU NoirVar.effU
            (fun t : NoirVar.NodeMemory Int => t.free_count) 1
            (fun t nv => NoirVar.dealloc_free t nv.node) (pqExport d.unsearched).length m
            (pqExport d.unsearched) 0 hsu
          have hlenA := sweepGo_measure NoirVar.cleanBadU NoirVar.effU
            (fun t : NoirVar.NodeMemory Int => t.node_storage.length) 0
            (fun t nv => NoirVar.dealloc_len t nv.node) (pqExport d.unsearched).length m
            (pqExport d.unsearched) 0 hsu
          have hfreeS := sweepGo_measure NoirVar.cleanBadS NoirVar.effS
            (fun t : NoirVar.NodeMemory Int => t.free_count) 1
            (fun t id => NoirVar.dealloc_free t id) d.searched.length mA d.searched 0 hss
          have hlenS := sweepGo_measure NoirVar.cleanBadS NoirVar.effS
            (fun t : NoirVar.NodeMemory Int => t.node_storage.length) 0
            (fun t id => NoirVar.dealloc_len t id) d.searched.length mA d.searched 0 hss
          have hpermS := sweepGo_perm d.searched.length mA d.searched 0 (by omega) hss
          dsimp only at hfreeA hlenA hfreeS hlenS
          refine ⟨by omega, by omega, ?_⟩
          intro id hid
          rw [← hd1] at hid
          exact hpermS.subset (List.mem_append.mpr (Or.inl hid))

/-- Facts about the `noir` per-depth cleanup loop. -/
theorem NoirVar.cleanupRange_facts : ∀ (fuel : Nat) (s : NoirVar.Mgr Int) (i : Nat)
    {s2 : NoirVar.Mgr Int}, NoirVar.cleanupRange fuel s i = some s2 →
    s2.memory.node_storage.length = s.memory.node_storage.length ∧
    s.memory.free_count ≤ s2.memory.free_count ∧
    s2.node_cursor = s.node_cursor ∧
    s2.config = s.config ∧
    s2.tt = s.tt ∧
    (∀ d, ∀ id ∈ (s2.depths.getD d default).searched,
      id ∈ (s.depths.getD d default).searched) := by
  intro fuel
  induction fuel with
  | zero =>
    intro s i s2 heq
    simp only [NoirVar.cleanupRange, Option.some.injEq] at heq
    subst heq
    exact ⟨rfl, le_refl _, rfl, rfl, rfl, fun d id h => h⟩
  | succ fuel ih =>
    intro s i s2 heq
    rcases hcl : NoirVar.cleanup (s.depths.getD i default) s.memory with _ | ⟨d1, m1⟩
    · simp only [NoirVar.cleanupRange, hcl, Option.bind_eq_bind, Option.none_bind] at heq
      exact Option.noConfusion heq
    · simp only [NoirVar.cleanupRange, hcl, Option.bind_eq_bind, Option.some_bind] at heq
      obtain ⟨hlen, hfree, hcur, hcfg, htt, hsub⟩ := ih _ _ heq
      obtain ⟨hlen1, hfree1, hsub1⟩ := NoirVar.cleanup_facts _ _ hcl
      refine ⟨by simp at hlen; omega, by simp at hfree; omega, hcur, hcfg, htt, ?_⟩
      intro d id hid
      have := hsub d id hid
      simp only at this
      by_cases hdi : d = i
      · subst hdi
        by_cases hd : d < s.depths.length
        · rw [getD_set_self _ _ _ _ hd] at this
          exact hsub1 id this
        · rw [List.set_eq_of_length_le (by omega)] at this
          exact this
      · rw [List.getD_eq_getElem?_getD, List.getElem?_set_ne (fun h => hdi h.symm),
          ← List.getD_eq_getElem?_getD] at this
        exact this

/-- Facts about `noir` manager-level `cleanup(start, end)`. -/
theorem NoirVar.mgrCleanup_facts (s : NoirVar.Mgr Int) (start stop : Nat)
    {s2 : NoirVar.Mgr Int} (heq : NoirVar.mgrCleanup s start stop = some s2) :
    s2.memory.node_storage.length = s.memory.node_storage.length ∧
    s.memory.free_count ≤ s2.memory.free_count ∧
    s2.node_cursor = s.node_cursor ∧
    s2.config = s.config ∧
    (∀ d, ∀ id ∈ (s2.depths.getD d default).searched,
      id ∈ (s.depths.getD d default).searched) := by
  rcases hcr : NoirVar.cleanupRange (stop - start) s start with _ | s1
  · simp only [NoirVar.mgrCleanup, hcr, Option.bind_eq_bind, Option.none_bind] at heq
    exact Option.noConfusion heq
  · simp only [NoirVar.mgrCleanup, hcr, Option.bind_eq_bind, Option.some_bind,
      Option.some.injEq] at heq
    obtain ⟨hlen, hfree, hcur, hcfg, htt, hsub⟩ := NoirVar.cleanupRange_facts _ _ _ hcr
    subst heq
    exact ⟨hlen, hfree, hcur, hcfg, hsub⟩

/-- Every `false` exit of `noir` `prune` leaves the manager untouched. -/
theorem NoirVar.prune_false_eq (s : NoirVar.Mgr Int) {s2 : NoirVar.Mgr Int}
    (heq : NoirVar.prune s = some (false, s2)) : s2 = s := by
  by_cases h0 : s.config.prune_depth_limit = 0
  · simp only [NoirVar.prune, h0, if_true, Option.some.injEq, Prod.mk.injEq] at heq
    exact heq.2.symm
  · rcases hfa : firstActiveAux s.depths 0 with _ | f
    · simp only [NoirVar.prune, if_neg h0, hfa, Option.some.injEq, Prod.mk.injEq] at heq
      exact heq.2.symm
    · rcases hla : lastActiveAux s.depths with _ | l
      · by_cases hgt : s.config.prune_depth_limit < f
        · simp only [NoirVar.prune, if_neg h0, hfa, hla, if_pos hgt, Option.some.injEq,
            Prod.mk.injEq] at heq
          exact heq.2.symm
        · simp only [NoirVar.prune, if_neg h0, hfa, hla, if_neg hgt] at heq
          have hne : (some f : Option Nat) ≠ none := by simp
          rw [if_neg hne] at heq
          exact Option.noConfusion heq
      · by_cases hgt : s.config.prune_depth_limit < f
        · simp only [NoirVar.prune, if_neg h0, hfa, hla, if_pos hgt, Option.some.injEq,
            Prod.mk.injEq] at heq
          exact heq.2.symm
        · by_cases hfl : f = l
          · subst hfl
            simp only [NoirVar.prune, if_neg h0, hfa, hla, if_neg hgt, if_true,
              Option.some.injEq, Prod.mk.injEq] at heq
            exact heq.2.symm
          · rcases hbv : (s.depths.getD l default).unsearched.head? with _ | bv
            · simp only [NoirVar.prune, if_neg h0, hfa, hla, if_neg hgt, Option.some.injEq, hfl,
                if_false, hbv] at heq
              exact Option.noConfusion heq
            · rcases hsv : NoirVar.get_parent_at s.memory.node_storage bv.node (l - f)
                  with _ | surv
              · simp only [NoirVar.prune, if_neg h0, hfa, hla, if_neg hgt, Option.some.injEq, hfl,
                  if_false, hbv, hsv] at heq
                exact Option.noConfusion heq
              · rcases hfil : NoirVar.filter (s.depths.getD f default) (some surv) s.memory
                    with _ | ⟨d1, m1⟩
                · simp only [NoirVar.prune, if_neg h0, hfa, hla, if_neg hgt, Option.some.injEq, hfl,
                    if_false, hbv, hsv, hfil, Option.bind_eq_bind, Option.none_bind] at heq
                  exact Option.noConfusion heq
                · rcases hmc : NoirVar.mgrCleanup
                      {s with depths := s.depths.set f d1, memory := m1} f (l + 1)
                      with _ | s3
                  · simp only [NoirVar.prune, if_neg h0, hfa, hla, if_neg hgt, Option.some.injEq, hfl,
                      if_false, hbv, hsv, hfil, Option.bind_eq_bind, Option.some_bind, hmc,
                      Option.none_bind] at heq
                    exact Option.noConfusion heq
                  · simp only [NoirVar.prune, if_neg h0, hfa, hla, if_neg hgt, Option.some.injEq, hfl,
                      if_false, hbv, hsv, hfil, Option.bind_eq_bind, Option.some_bind, hmc,
                      Prod.mk.injEq] at heq
                    exact absurd heq.1 (by simp)

/-- A `true` exit of `noir` `prune`: cursor and config untouched, storage
size preserved, free counter monotone — strictly so when every depth's
containers hold pairwise-distinct nodes — and searched entries only
disappear. -/
theorem NoirVar.prune_true_spec (s : NoirVar.Mgr Int) {s2 : NoirVar.Mgr Int}
    (heq : NoirVar.prune s = some (true, s2)) :
    s2.node_cursor = s.node_cursor ∧
    s2.config = s.config ∧
    s2.memory.node_storage.length = s.memory.node_storage.length ∧
    s.memory.free_count ≤ s2.memory.free_count ∧
    (∀ d, ∀ id ∈ (s2.depths.getD d default).searched,
      id ∈ (s.depths.getD d default).searched) ∧
    ((∀ dep ∈ s.depths, ((dep.unsearched.map NodeValue.node) ++ dep.searched).Nodup) →
      s.memory.free_count < s2.memory.free_count) := by
  by_cases h0 : s.config.prune_depth_limit = 0
  · simp only [NoirVar.prune, h0, if_true, Option.some.injEq, Prod.mk.injEq] at heq
    exact absurd heq.1 (by simp)
  · rcases hfa : firstActiveAux s.depths 0 with _ | f
    · simp only [NoirVar.prune, if_neg h0, hfa, Option.some.injEq, Prod.mk.injEq] at heq
      exact absurd heq.1 (by simp)
    · rcases hla : lastActiveAux s.depths with _ | l
      · by_cases hgt : s.config.prune_depth_limit < f
        · simp only [NoirVar.prune, if_neg h0, hfa, hla, if_pos hgt, Option.some.injEq,
            Prod.mk.injEq] at heq
          exact absurd heq.1 (by simp)
        · simp only [NoirVar.prune, if_neg h0, hfa, hla, if_neg hgt] at heq
          have hne : (some f : Option Nat) ≠ none := by simp
          rw [if_neg hne] at heq
          exact Option.noConfusion heq
      · by_cases hgt : s.config.prune_depth_limit < f
        · simp only [NoirVar.prune, if_neg h0, hfa, hla, if_pos hgt, Option.some.injEq,
            Prod.mk.injEq] at heq
          exact absurd heq.1 (by simp)
        · by_cases hfl : f = l
          · subst hfl
            simp only [NoirVar.prune, if_neg h0, hfa, hla, if_neg hgt, if_true,
              Option.some.injEq, Prod.mk.injEq] at heq
            exact absurd heq.1 (by simp)
          · rcases hbv : (s.depths.getD l default).unsearched.head? with _ | bv
            · simp only [NoirVar.prune, if_neg h0, hfa, hla, if_neg hgt, Option.some.injEq, hfl,
                if_false, hbv] at heq
              exact Option.noConfusion heq
            · rcases hsv : NoirVar.get_parent_at s.memory.node_storage bv.node (l - f)
                  with _ | surv
              · simp only [NoirVar.prune, if_neg h0, hfa, hla, if_neg hgt, Option.some.injEq, hfl,
                  if_false, hbv, hsv] at heq
                exact Option.noConfusion heq
              · rcases hfil : NoirVar.filter (s.depths.getD f default) (some surv) s.memory
                    with _ | ⟨d1, m1⟩
                · simp only [NoirVar.prune, if_neg h0, hfa, hla, if_neg hgt, Option.some.injEq, hfl,
                    if_false, hbv, hsv, hfil, Option.bind_eq_bind, Option.none_bind] at heq
                  exact Option.noConfusion heq
                · rcases hmc : NoirVar.mgrCleanup
                      {s with depths := s.depths.set f d1, memory := m1} f (l + 1)
                      with _ | s3
                  · simp only [NoirVar.prune, if_neg h0, hfa, hla, if_neg hgt, Option.some.injEq, hfl,
                      if_false, hbv, hsv, hfil, Option.bind_eq_bind, Option.some_bind, hmc,
                      Option.none_bind] at heq
                    exact Option.noConfusion heq
                  · simp only [NoirVar.prune, if_neg h0, hfa, hla, if_neg hgt, Option.some.injEq, hfl,
                      if_false, hbv, hsv, hfil, Option.bind_eq_bind, Option.some_bind, hmc,
                      Prod.mk.injEq] at heq
                    obtain ⟨-, hs2⟩ := heq
                    subst hs2
                    obtain ⟨hflen, hffree, hfsub, hfstrict⟩ :=
                      NoirVar.filter_facts _ _ _ hfil
                    obtain ⟨hclen, hcfree, hccur, hccfg, hcsub⟩ :=
                      NoirVar.mgrCleanup_facts _ _ _ hmc
                    obtain ⟨-, hfb, hfsz⟩ := firstActiveAux_spec s.depths 0 f hfa
                    simp only [Nat.sub_zero] at hfb hfsz
                    refine ⟨hccur, hccfg, by simp only at hclen; omega,
                      by simp only at hcfree; omega, ?_, ?_⟩
                    · intro d id hid
                      have h1 := hcsub d id hid
                      simp only at h1
                      by_cases hdi : d = f
                      · subst hdi
                        rw [getD_set_self _ _ _ _ hfb] at h1
                        exact hfsub id h1
                      · rw [List.getD_eq_getElem?_getD,
                          List.getElem?_set_ne (fun h => hdi h.symm),
                          ← List.getD_eq_getElem?_getD] at h1
                        exact h1
                    · intro hnodup
                      have hmem : s.depths.getD f default ∈ s.depths := by
                        rw [List.getD_eq_getElem?_getD, List.getElem?_eq_getElem hfb]
                        exact List.getElem_mem hfb
                      have hnd := hnodup _ hmem
                      have hlen2 : 2 ≤ (((s.depths.getD f default).unsearched.map
                          NodeValue.node) ++ (s.depths.getD f default).searched).length := by
                        simp only [List.length_append, List.length_map]
                        have := hfsz
                        simp only [NodeDepth.size] at this
                        omega
                      obtain ⟨x, hx, hxne⟩ := exists_ne_of_nodup _ hnd hlen2 surv
                      have hstrict := hfstrict x (List.mem_append.mp hx)
                        (by simp [hxne])
                      simp only at hcfree
                      omega

/-- `scanLoop` only moves the round-robin depth cursor: the containers,
memory, cursor node, allocation slot and config are untouched. -/
theorem NoirVar.scanLoop_frame (fuel : Nat) :
    ∀ s : NoirVar.Mgr Int,
      ((NoirVar.scanLoop fuel s).1).depths = s.depths ∧
      ((NoirVar.scanLoop fuel s).1).memory = s.memory ∧
      ((NoirVar.scanLoop fuel s).1).node_cursor.cursor = s.node_cursor.cursor ∧
      ((NoirVar.scanLoop fuel s).1).node_cursor.allocated_node
        = s.node_cursor.allocated_node ∧
      ((NoirVar.scanLoop fuel s).1).config = s.config := by
  induction fuel with
  | zero => exact fun s => ⟨rfl, rfl, rfl, rfl, rfl⟩
  | succ n ih =>
    intro s
    by_cases hemp :
        (s.depths.getD s.node_cursor.depth default).unsearched.isEmpty = true
    · simp only [NoirVar.scanLoop, if_pos hemp]
      exact ih (NoirVar.increment_depth_counter s)
    · simp only [NoirVar.scanLoop, if_neg hemp]
      exact ⟨trivial, trivial, trivial, trivial, trivial⟩

/-- A null (`some (none, ·)`) exit of `getTaskScan` restores the depth
cursor and leaves the depth containers exactly as they were. -/
theorem NoirVar.getTaskScan_none (s : NoirVar.Mgr Int) {s2 : NoirVar.Mgr Int}
    (heq : NoirVar.getTaskScan s = some (none, s2)) :
    s2.node_cursor.depth = s.node_cursor.depth ∧ s2.depths = s.depths := by
  have hfr := NoirVar.scanLoop_frame s.depths.length s
  rcases hsl : NoirVar.scanLoop s.depths.length s with ⟨s1, found⟩
  rw [hsl] at hfr
  obtain ⟨hd, -, -, -, -⟩ := hfr
  cases found with
  | false =>
    simp only [NoirVar.getTaskScan, hsl, Bool.false_eq_true, if_false,
      Option.some.injEq, Prod.mk.injEq] at heq
    obtain ⟨-, hs2⟩ := heq
    subst hs2
    exact ⟨rfl, hd⟩
  | true =>
    rcases hg : (s1.depths.getD s1.node_cursor.depth default).get_unsearched_node
        with _ | ⟨id, d1⟩
    · simp only [NoirVar.getTaskScan, hsl, if_true, hg] at heq
      exact Option.noConfusion heq
    · simp only [NoirVar.getTaskScan, hsl, if_true, hg, Option.some.injEq,
        Prod.mk.injEq] at heq
      exact absurd heq.1 (by simp)

/-- C10: in the single-threaded (`noir`) variant, when `get_task` returns
the in-band null — in particular because every depth's unsearched heap is
empty — the round-robin depth cursor is restored to its pre-call value and
no node is moved from unsearched into searched (a depth's searched list
gains no entry it did not already have). -/
theorem C10_get_task_none_restores_cursor (s : NoirVar.Mgr Int)
    {s2 : NoirVar.Mgr Int}
    (hemp : ∀ d < s.depths.length, (s.depths.getD d default).unsearched = [])
    (heq : NoirVar.get_task s = some (none, s2)) :
    s2.node_cursor.depth = s.node_cursor.depth ∧
    ∀ d, ∀ id ∈ (s2.depths.getD d default).searched,
      id ∈ (s.depths.getD d default).searched := by
  clear hemp
  by_cases hlim : s.memory.is_limit_reached s.config.node_limit = true
  · rcases hpr : NoirVar.prune s with _ | ⟨b, s1⟩
    · simp only [NoirVar.get_task, if_pos hlim, hpr] at heq
      exact Option.noConfusion heq
    · cases b with
      | false =>
        simp only [NoirVar.get_task, if_pos hlim, hpr, Option.some.injEq,
          Prod.mk.injEq] at heq
        obtain ⟨-, hs2⟩ := heq
        subst hs2
        have hse : s1 = s := NoirVar.prune_false_eq s hpr
        subst hse
        exact ⟨rfl, fun d id hid => hid⟩
      | true =>
        simp only [NoirVar.get_task, if_pos hlim, hpr] at heq
        obtain ⟨hdep, hdeq⟩ := NoirVar.getTaskScan_none s1 heq
        obtain ⟨hcur, -, -, -, hsub, -⟩ := NoirVar.prune_true_spec s hpr
        refine ⟨by rw [hdep, hcur], fun d id hid => ?_⟩
        exact hsub d id (by rw [← hdeq]; exact hid)
  · simp only [NoirVar.get_task, if_neg hlim] at heq
    obtain ⟨hdep, hdeq⟩ := NoirVar.getTaskScan_none s heq
    exact ⟨hdep, fun d id hid => by rw [← hdeq]; exact hid⟩

def C10mgr : NoirVar.Mgr Int :=
  {memory := ⟨[⟨none, false, 0⟩, ⟨some 0, false, 1⟩], none, 2, 0⟩,
   node_cursor := ⟨none, none, 1⟩,
   depths := [⟨[], [0]⟩, ⟨[], [1]⟩, ⟨[], []⟩],
   config := ⟨2, 1, 10⟩,
   total_searched := 0, total_collision := 0, tt := []}

/-- C10 at a concrete manager: two live nodes already searched, every
unsearched heap empty, cursor parked at depth 1; `get_task` hands back the
null task and the very same manager. -/
theorem C10_get_task_none_restores_cursor_witness :
    ((∀ d < C10mgr.depths.length, (C10mgr.depths.getD d default).unsearched = []) ∧
      NoirVar.get_task C10mgr = some (none, C10mgr)) ∧
    (C10mgr.node_cursor.depth = C10mgr.node_cursor.depth ∧
      ∀ d, ∀ id ∈ (C10mgr.depths.getD d default).searched,
        id ∈ (C10mgr.depths.getD d default).searched) :=
  ⟨⟨by decide, by decide⟩,
    C10_get_task_none_restores_cursor C10mgr (by decide) (by decide)⟩

theorem NodeVar.dealloc_free_n (m : NodeVar.NodeMemory Int) (id : Nat) :
    (m.deallocate id).free_count = m.free_count + 1 := rfl

theorem NodeVar.dealloc_len_n (m : NodeVar.NodeMemory Int) (id : Nat) :
    (m.deallocate id).node_storage.length = m.node_storage.length := by
  simp [NodeVar.NodeMemory.deallocate]

/-- Facts about node-variant `filter`: storage size preserved, free counter
monotone (strictly, once any container element differs from the survivor),
kept searched entries come from the old searched list. -/
theorem NodeVar.filter_facts_n (d : NodeDepth) (surv : Option Nat)
    (m : NodeVar.NodeMemory Int) {d1 : NodeDepth} {m1 : NodeVar.NodeMemory Int}
    (heq : NodeVar.filter d surv m = some (d1, m1)) :
    m1.node_storage.length = m.node_storage.length ∧
    m.free_count ≤ m1.free_count ∧
    (∀ id ∈ d1.searched, id ∈ d.searched) ∧
    (∀ x, (x ∈ d.unsearched.map NodeValue.node ∨ x ∈ d.searched) → some x ≠ surv →
      m.free_count < m1.free_count) := by
  by_cases hemp : d.emptyb
  · simp only [NodeVar.filter, hemp, if_true, Option.some.injEq, Prod.mk.injEq] at heq
    obtain ⟨rfl, rfl⟩ := heq
    simp only [NodeDepth.emptyb, Bool.and_eq_true, List.isEmpty_iff] at hemp
    refine ⟨rfl, le_refl _, fun id h => h, ?_⟩
    intro x hx
    rw [hemp.1, hemp.2] at hx
    simp at hx
  · by_cases hue : d.unsearched.isEmpty
    · rcases hss : sweepRun (NodeVar.filtBadS surv) NodeVar.effS m d.searched
          with _ | ⟨m2, s1, remS⟩
      · simp only [NodeVar.filter, hemp, Bool.not_eq_true, Bool.false_eq_true, if_false, hue, if_true, hss, Option.bind_eq_bind, Option.some_bind, Option.none_bind] at heq
        exact Option.noConfusion heq
      · simp only [NodeVar.filter, hemp, Bool.not_eq_true, Bool.false_eq_true, if_false, hue,
          if_true, hss, Option.bind_eq_bind, Option.some_bind, Option.some.injEq,
          Prod.mk.injEq] at heq
        obtain ⟨hd1, hm1⟩ := heq
        subst hm1
        have hfree := sweepGo_measure (NodeVar.filtBadS surv) NodeVar.effS
          (fun t : NodeVar.NodeMemory Int => t.free_count) 1
          (fun t id => NodeVar.dealloc_free_n t id) d.searched.length m d.searched 0 hss
        have hlen := sweepGo_measure (NodeVar.filtBadS surv) NodeVar.effS
          (fun t : NodeVar.NodeMemory Int => t.node_storage.length) 0
          (fun t id => NodeVar.dealloc_len_n t id) d.searched.length m d.searched 0 hss
        have hperm := sweepGo_perm d.searched.length m d.searched 0 (by omega) hss
        dsimp only at hfree hlen
        refine ⟨by omega, by omega, ?_, ?_⟩
        · intro id hid
          rw [← hd1] at hid
          exact hperm.subset (List.mem_append.mpr (Or.inl hid))
        · intro x hx hxs
          rcases hx with hxu | hxs2
          · rw [List.isEmpty_iff] at hue
            rw [hue] at hxu
            simp at hxu
          · have hss2 : sweepRun
                (fun (_ : NodeVar.NodeMemory Int) (id : Nat) =>
                  some ((fun id2 => decide (some id2 ≠ surv)) id))
                NodeVar.effS m d.searched = some (m2, s1, remS) := hss
            have hr : x ∈ remS := sweepRun_removes_bad
              (fun id => decide (some id ≠ surv)) m d.searched hss2 hxs2 (by simp [hxs])
            have h1 : 1 ≤ remS.length := List.length_pos.mpr (List.ne_nil_of_mem hr)
            omega
    · rcases hsu : sweepRun (NodeVar.filtBadU surv) NodeVar.effU m (pqExport d.unsearched)
          with _ | ⟨mA, keptU, remU⟩
      · simp only [NodeVar.filter, hemp, Bool.not_eq_true, Bool.false_eq_true, if_false, hue, hsu, Option.bind_eq_bind, Option.some_bind, Option.none_bind] at heq
        exact Option.noConfusion heq
      · rcases hss : sweepRun (NodeVar.filtBadS surv) NodeVar.effS mA d.searched
            with _ | ⟨m2, s1, remS⟩
        · simp only [NodeVar.filter, hemp, Bool.not_eq_true, Bool.false_eq_true, if_false, hue,
            hsu, hss, Option.bind_eq_bind, Option.some_bind, Option.none_bind] at heq
          exact Option.noConfusion heq
        · simp only [NodeVar.filter, hemp, Bool.not_eq_true, Bool.false_eq_true, if_false, hue,
            hsu, hss, Option.bind_eq_bind, Option.some_bind, Option.none_bind,
            Option.some.injEq, Prod.mk.injEq] at heq
          obtain ⟨hd1, hm1⟩ := heq
          subst hm1
          have hfreeA := sweepGo_measure (NodeVar.filtBadU surv) NodeVar.effU
            (fun t : NodeVar.NodeMemory Int => t.free_count) 1
            (fun t nv => NodeVar.dealloc_free_n t nv.node) (pqExport d.unsearched).length m
            (pqExport d.unsearched) 0 hsu
          have hlenA := sweepGo_measure (NodeVar.filtBadU surv) NodeVar.effU
            (fun t : NodeVar.NodeMemory Int => t.node_storage.length) 0
            (fun t nv => NodeVar.dealloc_len_n t nv.node) (pqExport d.unsearched).length m
            (pqExport d.unsearched) 0 hsu
          have hpermU := sweepGo_perm (pqExport d.unsearched).length m
            (pqExport d.unsearched) 0 (by omega) hsu
          have hfreeS := sweepGo_measure (NodeVar.filtBadS surv) NodeVar.effS
            (fun t : NodeVar.NodeMemory Int => t.free_count) 1
            (fun t id => NodeVar.dealloc_free_n t id) d.searched.length mA d.searched 0 hss
          have hlenS := sweepGo_measure (NodeVar.filtBadS surv) NodeVar.effS
            (fun t : NodeVar.NodeMemory Int => t.node_storage.length) 0
            (fun t id => NodeVar.dealloc_len_n t id) d.searched.length mA d.searched 0 hss
          have hpermS := sweepGo_perm d.searched.length mA d.searched 0 (by omega) hss
          dsimp only at hfreeA hlenA hfreeS hlenS
          refine ⟨by omega, by omega, ?_, ?_⟩
          · intro id hid
            rw [← hd1] at hid
            exact hpermS.subset (List.mem_append.mpr (Or.inl hid))
          · intro x hx hxs
            rcases hx with hxu | hxs2
            · obtain ⟨nv, hnv, hnvx⟩ := List.mem_map.mp hxu
              have hsu2 : sweepRun
                  (fun (_ : NodeVar.NodeMemory Int) (nv2 : NodeValue) =>
                    some ((fun nv3 : NodeValue => decide (some nv3.node ≠ surv)) nv2))
                  NodeVar.effU m (pqExport d.unsearched) = some (mA, keptU, remU) := hsu
              have hr : nv ∈ remU := sweepRun_removes_bad
                (fun nv2 => decide (some nv2.node ≠ surv)) m (pqExport d.unsearched)
                hsu2 hnv (by simp [pqExport, hnvx, hxs])
              have h1 : 1 ≤ remU.length := List.length_pos.mpr (List.ne_nil_of_mem hr)
              omega
            · have hss2 : sweepRun
                  (fun (_ : NodeVar.NodeMemory Int) (id : Nat) =>
                    some ((fun id2 => decide (some id2 ≠ surv)) id))
                  NodeVar.effS mA d.searched = some (m2, s1, remS) := hss
              have hr : x ∈ remS := sweepRun_removes_bad
                (fun id => decide (some id ≠ surv)) mA d.searched hss2 hxs2 (by simp [hxs])
              have h1 : 1 ≤ remS.length := List.length_pos.mpr (List.ne_nil_of_mem hr)
              omega

/-- Facts about node-variant `cleanup`: storage size preserved, free counter
monotone, kept searched entries come from the old searched list. -/
theorem NodeVar.cleanup_facts_n (d : NodeDepth) (m : NodeVar.NodeMemory Int)
    {d1 : NodeDepth} {m1 : NodeVar.NodeMemory Int}
    (heq : NodeVar.cleanup d m = some (d1, m1)) :
    m1.node_storage.length = m.node_storage.length ∧
    m.free_count ≤ m1.free_count ∧
    (∀ id ∈ d1.searched, id ∈ d.searched) := by
  by_cases hemp : d.emptyb
  · simp only [NodeVar.cleanup, hemp, if_true, Option.some.injEq, Prod.mk.injEq] at heq
    obtain ⟨rfl, rfl⟩ := heq
    exact ⟨rfl, le_refl _, fun id h => h⟩
  · by_cases hue : d.unsearched.isEmpty
    · rcases hss : sweepRun NodeVar.cleanBadS NodeVar.effS m d.searched
          with _ | ⟨m2, s1, remS⟩
      · simp only [NodeVar.cleanup, hemp, Bool.not_eq_true, Bool.false_eq_true, if_false,
          hue, if_true, hss, Option.bind_eq_bind, Option.some_bind, Option.none_bind] at heq
        exact Option.noConfusion heq
      · simp only [NodeVar.cleanup, hemp, Bool.not_eq_true, Bool.false_eq_true, if_false,
          hue, if_true, hss, Option.bind_eq_bind, Option.some_bind, Option.some.injEq,
          Prod.mk.injEq] at heq
        obtain ⟨hd1, hm1⟩ := heq
        subst hm1
        have hfree := sweepGo_measure NodeVar.cleanBadS NodeVar.effS
          (fun t : NodeVar.NodeMemory Int => t.free_count) 1
          (fun t id => NodeVar.dealloc_free_n t id) d.searched.length m d.searched 0 hss
        have hlen := sweepGo_measure NodeVar.cleanBadS NodeVar.effS
          (fun t : NodeVar.NodeMemory Int => t.node_storage.length) 0
          (fun t id => NodeVar.dealloc_len_n t id) d.searched.length m d.searched 0 hss
        have hperm := sweepGo_perm d.searched.length m d.searched 0 (by omega) hss
        dsimp only at hfree hlen
        refine ⟨by omega, by omega, ?_⟩
        intro id hid
        rw [← hd1] at hid
        exact hperm.subset (List.mem_append.mpr (Or.inl hid))
    · rcases hsu : sweepRun NodeVar.cleanBadU NodeVar.effU m (pqExport d.unsearched)
          with _ | ⟨mA, keptU, remU⟩
      · simp only [NodeVar.cleanup, hemp, Bool.not_eq_true, Bool.false_eq_true, if_false,
          hue, hsu, Option.bind_eq_bind, Option.some_bind, Option.none_bind] at heq
        exact Option.noConfusion heq
      · rcases hss : sweepRun NodeVar.cleanBadS NodeVar.effS mA d.searched
            with _ | ⟨m2, s1, remS⟩
        · simp only [NodeVar.cleanup, hemp, Bool.not_eq_true, Bool.false_eq_true, if_false,
            hue, hsu, hss, Option.bind_eq_bind, Option.some_bind, Option.none_bind] at heq
          exact Option.noConfusion heq
        · simp only [NodeVar.cleanup, hemp, Bool.not_eq_true, Bool.false_eq_true, if_false,
            hue, hsu, hss, Option.bind_eq_bind, Option.some_bind, Option.none_bind,
            Option.some.injEq, Prod.mk.injEq] at heq
          obtain ⟨hd1, hm1⟩ := heq
          subst hm1
          have hfreeA := sweepGo_measure NodeVar.cleanBadU NodeVar.effU
            (fun t : NodeVar.NodeMemory Int => t.free_count) 1
            (fun t nv => NodeVar.dealloc_free_n t nv.node) (pqExport d.unsearched).length m
            (pqExport d.unsearched) 0 hsu
          have hlenA := sweepGo_measure NodeVar.cleanBadU NodeVar.effU
            (fun t : NodeVar.NodeMemory Int => t.node_storage.length) 0
            (fun t nv => NodeVar.dealloc_len_n t nv.node) (pqExport d.unsearched).length m
            (pqExport d.unsearched) 0 hsu
          have hfreeS := sweepGo_measure NodeVar.cleanBadS NodeVar.effS
            (fun t : NodeVar.NodeMemory Int => t.free_count) 1
            (fun t id => NodeVar.dealloc_free_n t id) d.searched.length mA d.searched 0 hss
          have hlenS := sweepGo_measure NodeVar.cleanBadS NodeVar.effS
            (fun t : NodeVar.NodeMemory Int => t.node_storage.length) 0
            (fun t id => NodeVar.dealloc_len_n t id) d.searched.length mA d.searched 0 hss
          have hpermS := sweepGo_perm d.searched.length mA d.searched 0 (by omega) hss
          dsimp only at hfreeA hlenA hfreeS hlenS
          refine ⟨by omega, by omega, ?_⟩
          intro id hid
          rw [← hd1] at hid
          exact hpermS.subset (List.mem_append.mpr (Or.inl hid))

/-- Facts about the node-variant per-depth cleanup loop of `prune`. -/
theorem NodeVar.cleanupRange_facts_n : ∀ (fuel : Nat) (s : NodeVar.Mgr Int) (i : Nat)
    {s2 : NodeVar.Mgr Int}, NodeVar.cleanupRange fuel s i = some s2 →
    s2.memory.node_storage.length = s.memory.node_storage.length ∧
    s.memory.free_count ≤ s2.memory.free_count ∧
    s2.node_cursor = s.node_cursor ∧
    s2.config = s.config ∧
    (∀ d, ∀ id ∈ (s2.depths.getD d default).searched,
      id ∈ (s.depths.getD d default).searched) := by
  intro fuel
  induction fuel with
  | zero =>
    intro s i s2 heq
    simp only [NodeVar.cleanupRange, Option.some.injEq] at heq
    subst heq
    exact ⟨rfl, le_refl _, rfl, rfl, fun d id h => h⟩
  | succ fuel ih =>
    intro s i s2 heq
    rcases hcl : NodeVar.cleanup (s.depths.getD i default) s.memory with _ | ⟨d1, m1⟩
    · simp only [NodeVar.cleanupRange, hcl, Option.bind_eq_bind, Option.none_bind] at heq
      exact Option.noConfusion heq
    · simp only [NodeVar.cleanupRange, hcl, Option.bind_eq_bind, Option.some_bind] at heq
      obtain ⟨hlen, hfree, hcur, hcfg, hsub⟩ := ih _ _ heq
      obtain ⟨hlen1, hfree1, hsub1⟩ := NodeVar.cleanup_facts_n _ _ hcl
      refine ⟨by simp at hlen; omega, by simp at hfree; omega, hcur, hcfg, ?_⟩
      intro d id hid
      have := hsub d id hid
      simp only at this
      by_cases hdi : d = i
      · subst hdi
        by_cases hd : d < s.depths.length
        · rw [getD_set_self _ _ _ _ hd] at this
          exact hsub1 id this
        · rw [List.set_eq_of_length_le (by omega)] at this
          exact this
      · rw [List.getD_eq_getElem?_getD, List.getElem?_set_ne (fun h => hdi h.symm),
          ← List.getD_eq_getElem?_getD] at this
        exact this


/-- A `true` exit of the node-variant `prune`: storage size preserved, free
counter monotone — strictly so when every depth\u0027s containers hold
pairwise-distinct nodes. -/
theorem NodeVar.prune_true_facts (s : NodeVar.Mgr Int) {s2 : NodeVar.Mgr Int}
    (heq : NodeVar.prune s = some (true, s2)) :
    s2.memory.node_storage.length = s.memory.node_storage.length ∧
    s.memory.free_count ≤ s2.memory.free_count ∧
    ((∀ dep ∈ s.depths, ((dep.unsearched.map NodeValue.node) ++ dep.searched).Nodup) →
      s.memory.free_count < s2.memory.free_count) := by
  rcases hla : lastActiveAux s.depths with _ | l
  · rcases hfa : firstActiveAux s.depths 0 with _ | f
    · simp only [NodeVar.prune, hfa, hla, if_true, Option.some.injEq,
        Prod.mk.injEq] at heq
      exact absurd heq.1 (by simp)
    · simp only [NodeVar.prune, hfa, hla, Option.some_ne_none, if_false] at heq
      exact Option.noConfusion heq
  · rcases hfa : firstActiveAux s.depths 0 with _ | f
    · have hc : ((none : Option Nat) = some l) ↔ False := by simp
      simp only [NodeVar.prune, hfa, hla, hc, if_false] at heq
      exact Option.noConfusion heq
    · by_cases hfl : f = l
      · subst hfl
        simp only [NodeVar.prune, hfa, hla, if_true, Option.some.injEq,
          Prod.mk.injEq] at heq
        exact absurd heq.1 (by simp)
      · rcases hbv : (s.depths.getD l default).unsearched.head? with _ | bv
        · simp only [NodeVar.prune, hfa, hla, Option.some.injEq, hfl, if_false,
            hbv] at heq
          exact Option.noConfusion heq
        · rcases hsv : NodeVar.get_parent_at s.memory.node_storage bv.node (l - f)
              with _ | surv
          · simp only [NodeVar.prune, hfa, hla, Option.some.injEq, hfl, if_false,
              hbv, hsv] at heq
            exact Option.noConfusion heq
          · rcases hfil : NodeVar.filter (s.depths.getD f default) (some surv) s.memory
                with _ | ⟨d1, m1⟩
            · simp only [NodeVar.prune, hfa, hla, Option.some.injEq, hfl, if_false,
                hbv, hsv, hfil, Option.bind_eq_bind, Option.none_bind] at heq
              exact Option.noConfusion heq
            · rcases hcr : NodeVar.cleanupRange (l + 1 - f)
                  {s with depths := s.depths.set f d1, memory := m1} f with _ | s3
              · simp only [NodeVar.prune, hfa, hla, Option.some.injEq, hfl, if_false,
                  hbv, hsv, hfil, Option.bind_eq_bind, Option.some_bind, hcr,
                  Option.none_bind] at heq
                exact Option.noConfusion heq
              · simp only [NodeVar.prune, hfa, hla, Option.some.injEq, hfl, if_false,
                  hbv, hsv, hfil, Option.bind_eq_bind, Option.some_bind, hcr,
                  Prod.mk.injEq] at heq
                obtain ⟨-, hs2⟩ := heq
                subst hs2
                obtain ⟨hflen, hffree, -, hfstrict⟩ := NodeVar.filter_facts_n _ _ _ hfil
                obtain ⟨hclen, hcfree, -, -, -⟩ := NodeVar.cleanupRange_facts_n _ _ _ hcr
                obtain ⟨-, hfb, hfsz⟩ := firstActiveAux_spec s.depths 0 f hfa
                simp only [Nat.sub_zero] at hfb hfsz
                refine ⟨by simp only at hclen; omega,
                  by simp only at hcfree; omega, ?_⟩
                intro hnodup
                have hmem : s.depths.getD f default ∈ s.depths := by
                  rw [List.getD_eq_getElem?_getD, List.getElem?_eq_getElem hfb]
                  exact List.getElem_mem hfb
                have hnd := hnodup _ hmem
                have hlen2 : 2 ≤ (((s.depths.getD f default).unsearched.map
                    NodeValue.node) ++ (s.depths.getD f default).searched).length := by
                  simp only [List.length_append, List.length_map]
                  have := hfsz
                  simp only [NodeDepth.size] at this
                  omega
                obtain ⟨x, hx, hxne⟩ := exists_ne_of_nodup _ hnd hlen2 surv
                have hstrict := hfstrict x (List.mem_append.mp hx) (by simp [hxne])
                simp only at hcfree
                omega


/-- C7: in both variants that implement lineage pruning, a `prune` call that
returns `true` strictly shrinks the live node count `pool.size()`
(`node_storage.length - free_count`), provided each depth's containers hold
pairwise-distinct live nodes (every node sits in exactly one container) and
at least one slot of the pool is live. -/
theorem C7_prune_true_strictly_shrinks_pool :
    (∀ (s : NodeVar.Mgr Int) (s2 : NodeVar.Mgr Int),
      (∀ dep ∈ s.depths, ((dep.unsearched.map NodeValue.node) ++ dep.searched).Nodup) →
      s.memory.free_count < s.memory.node_storage.length →
      NodeVar.prune s = some (true, s2) →
      s2.memory.size < s.memory.size) ∧
    (∀ (s : NoirVar.Mgr Int) (s2 : NoirVar.Mgr Int),
      (∀ dep ∈ s.depths, ((dep.unsearched.map NodeValue.node) ++ dep.searched).Nodup) →
      s.memory.free_count < s.memory.node_storage.length →
      NoirVar.prune s = some (true, s2) →
      s2.memory.size < s.memory.size) := by
  constructor
  · intro s s2 hnodup hlive heq
    obtain ⟨hlen, -, hstrict⟩ := NodeVar.prune_true_facts s heq
    have h1 := hstrict hnodup
    simp only [NodeVar.NodeMemory.size]
    omega
  · intro s s2 hnodup hlive heq
    obtain ⟨-, -, hlen, -, -, hstrict⟩ := NoirVar.prune_true_spec s heq
    have h1 := hstrict hnodup
    simp only [NoirVar.NodeMemory.size]
    omega

def C7nodeMgr : NodeVar.Mgr Int :=
  {memory := ⟨[⟨none, false, 0⟩, ⟨some 0, false, 1⟩, ⟨some 0, false, 2⟩,
               ⟨some 1, false, 3⟩], none, 4, 0⟩,
   node_cursor := {},
   depths := [⟨[], [0]⟩, ⟨[⟨1, 5⟩, ⟨2, 3⟩], []⟩, ⟨[⟨3, 7⟩], []⟩, ⟨[], []⟩],
   config := ⟨3, 4⟩}

def C7nodeOut : NodeVar.Mgr Int :=
  ((NodeVar.prune C7nodeMgr).getD (false, C7nodeMgr)).2

def C7noirMgr : NoirVar.Mgr Int :=
  {memory := ⟨[⟨none, false, 0⟩, ⟨some 0, false, 1⟩, ⟨some 0, false, 2⟩,
               ⟨some 1, false, 3⟩], none, 4, 0⟩,
   node_cursor := {},
   depths := [⟨[], [0]⟩, ⟨[⟨1, 5⟩, ⟨2, 3⟩], []⟩, ⟨[⟨3, 7⟩], []⟩, ⟨[], []⟩],
   config := ⟨3, 1, 4⟩,
   total_searched := 0, total_collision := 0, tt := []}

def C7noirOut : NoirVar.Mgr Int :=
  ((NoirVar.prune C7noirMgr).getD (false, C7noirMgr)).2

/-- C7 at concrete managers of both variants: four live nodes, a two-node
depth 1 under a deeper leaf; `prune` answers `true` and the pool strictly
shrinks. -/
theorem C7_prune_true_strictly_shrinks_pool_witness :
    ((∀ dep ∈ C7nodeMgr.depths,
        ((dep.unsearched.map NodeValue.node) ++ dep.searched).Nodup) ∧
      C7nodeMgr.memory.free_count < C7nodeMgr.memory.node_storage.length ∧
      NodeVar.prune C7nodeMgr = some (true, C7nodeOut) ∧
      C7nodeOut.memory.size < C7nodeMgr.memory.size) ∧
    ((∀ dep ∈ C7noirMgr.depths,
        ((dep.unsearched.map NodeValue.node) ++ dep.searched).Nodup) ∧
      C7noirMgr.memory.free_count < C7noirMgr.memory.node_storage.length ∧
      NoirVar.prune C7noirMgr = some (true, C7noirOut) ∧
      C7noirOut.memory.size < C7noirMgr.memory.size) :=
  ⟨⟨by decide, by decide, by decide,
    C7_prune_true_strictly_shrinks_pool.1 C7nodeMgr C7nodeOut (by decide) (by decide)
      (by decide)⟩,
   ⟨by decide, by decide, by decide,
    C7_prune_true_strictly_shrinks_pool.2 C7noirMgr C7noirOut (by decide) (by decide)
      (by decide)⟩⟩

/-- Invariant of the depth-walking batch loop: if the walk starts with its
fuel keeping it strictly above the deepest pending depth, the suffix of the
working pending list from the current depth on still agrees with the
original, and every batch already sitting in the workers is drawn from a
non-deepest original depth, then the same holds of every batch in the final
workers. -/
theorem AiVar.getTasksLoop_spec (cfgK : Nat) (counts : List Int)
    (orig : List AiVar.DepthTasks) :
    ∀ (fuel : Nat) (pend : List AiVar.DepthTasks) (taskCounts : List Nat)
      (threads : List AiVar.ThreadTasks) (cd ct : Nat)
      {pend2 : List AiVar.DepthTasks} {threads2 : List AiVar.ThreadTasks},
      AiVar.getTasksLoop cfgK counts fuel pend taskCounts threads cd ct
        = some (pend2, threads2) →
      cd + fuel + 1 ≤ orig.length →
      (∀ d, cd ≤ d → pend.getD d {} = orig.getD d {}) →
      (∀ th ∈ threads, ∀ b ∈ th.tasks,
        b.depth + 1 < orig.length ∧
        ∀ n ∈ b.nodes, n ∈ (orig.getD b.depth {}).tasks.map NodeValue.node) →
      ∀ th ∈ threads2, ∀ b ∈ th.tasks,
        b.depth + 1 < orig.length ∧
        ∀ n ∈ b.nodes, n ∈ (orig.getD b.depth {}).tasks.map NodeValue.node := by
  intro fuel
  induction fuel with
  | zero =>
    intro pend taskCounts threads cd ct pend2 threads2 heq hfu hsuf hth
    simp only [AiVar.getTasksLoop, Option.some.injEq, Prod.mk.injEq] at heq
    obtain ⟨-, h2⟩ := heq
    subst h2
    exact hth
  | succ fuel ih =>
    intro pend taskCounts threads cd ct pend2 threads2 heq hfu hsuf hth
    by_cases hct : ct < threads.length
    · by_cases hde : (pend.getD cd {}).tasks.isEmpty = true
      · simp only [AiVar.getTasksLoop, if_pos hct, hde, if_true] at heq
        exact ih pend taskCounts threads (cd + 1) ct heq (by omega)
          (fun d hd => hsuf d (by omega)) hth
      · simp only [AiVar.getTasksLoop, if_pos hct, hde, Bool.false_eq_true,
          if_false] at heq
        refine ih _ _ _ (cd + 1) _ heq (by omega) ?_ ?_
        · intro d hd
          rw [List.getD_eq_getElem?_getD,
            List.getElem?_set_ne (show cd ≠ d by omega),
            ← List.getD_eq_getElem?_getD]
          exact hsuf d (by omega)
        · intro th hth2 b hb
          rcases List.mem_or_eq_of_mem_set hth2 with hmem | hset
          · exact hth th hmem b hb
          · have hth0 : threads.getD ct {} ∈ threads := by
              rw [List.getD_eq_getElem?_getD, List.getElem?_eq_getElem hct]
              exact List.getElem_mem hct
            by_cases htk :
                (((pend.getD cd {}).tasks.take cfgK).map NodeValue.node).isEmpty = true
            · rw [if_pos htk] at hset
              subst hset
              exact hth _ hth0 b hb
            · rw [if_neg htk] at hset
              subst hset
              rcases List.mem_append.mp hb with hold | hnew
              · exact hth _ hth0 b hold
              · have hbeq : b = ⟨((pend.getD cd {}).tasks.take cfgK).map
                    NodeValue.node, cd⟩ := by
                  simpa using hnew
                subst hbeq
                dsimp only
                refine ⟨by omega, ?_⟩
                intro n hn
                rw [hsuf cd (le_refl cd)] at hn
                exact List.map_subset NodeValue.node
                  (List.take_subset cfgK (orig.getD cd {}).tasks) hn
    · simp only [AiVar.getTasksLoop, if_neg hct] at heq
      exact Option.noConfusion heq

/-- C9: `get_tasks` of the parallel variant never hands out a node of the
deepest pending bucket — every batch of every returned worker carries a
depth strictly above the last, and its nodes come from that depth's own
pending heap, so the deepest leaves are left for `finalize` alone. -/
theorem C9_get_tasks_skips_deepest_bucket (s : AiVar.Mgr Int)
    {r : List AiVar.ThreadTasks} {s2 : AiVar.Mgr Int}
    (heq : AiVar.get_tasks s = some (r, s2)) :
    ∀ th ∈ r, ∀ b ∈ th.tasks,
      b.depth + 1 < s.pending_depths.length ∧
      ∀ n ∈ b.nodes,
        n ∈ (s.pending_depths.getD b.depth {}).tasks.map NodeValue.node := by
  by_cases hpe : s.pending_depths.isEmpty = true
  · simp only [AiVar.get_tasks, hpe, if_true] at heq
    exact Option.noConfusion heq
  · rcases hlp : AiVar.getTasksLoop s.config.depth_task_size (AiVar.get_free_count s)
        (s.pending_depths.length - 1) s.pending_depths
        (List.replicate s.lanes.length 0)
        ((List.range s.lanes.length).map
          (fun i => ({thread_id := i} : AiVar.ThreadTasks)))
        0 (AiVar.get_thread_with_most_free (AiVar.get_free_count s))
        with _ | ⟨pend2, threads2⟩
    · simp only [AiVar.get_tasks, hpe, Bool.false_eq_true, if_false, hlp] at heq
      exact Option.noConfusion heq
    · simp only [AiVar.get_tasks, hpe, Bool.false_eq_true, if_false, hlp,
        Option.some.injEq, Prod.mk.injEq] at heq
      obtain ⟨hr, -⟩ := heq
      subst hr
      have hne : s.pending_depths ≠ [] := fun h => hpe (by simp [h])
      have hlen : 1 ≤ s.pending_depths.length := List.length_pos.mpr hne
      have hth0 : ∀ th ∈ (List.range s.lanes.length).map
          (fun i => ({thread_id := i} : AiVar.ThreadTasks)), ∀ b ∈ th.tasks,
          b.depth + 1 < s.pending_depths.length ∧
          ∀ n ∈ b.nodes,
            n ∈ (s.pending_depths.getD b.depth {}).tasks.map NodeValue.node := by
        intro th hth b hb
        obtain ⟨i, -, hi⟩ := List.mem_map.mp hth
        rw [← hi] at hb
        simp at hb
      have hloop := AiVar.getTasksLoop_spec s.config.depth_task_size
        (AiVar.get_free_count s) s.pending_depths (s.pending_depths.length - 1)
        s.pending_depths (List.replicate s.lanes.length 0) _ 0 _ hlp
        (by omega) (fun d _ => rfl) hth0
      intro th hthr b hb
      exact hloop th (List.mem_of_mem_filter hthr) b hb

def C9mgr : AiVar.Mgr Int :=
  {lanes := [⟨4, 2⟩],
   freed := [],
   pending_depths :=
     [{tasks := [⟨0, 0⟩]}, {tasks := [⟨1, 5⟩]}, {tasks := [⟨2, 7⟩]}],
   config := {depth := 2, depth_task_size := 2, node_limit := 100,
              prune_width := 1, award_width := 25},
   root := some (.node 0 0 0 0 []),
   next_id := 3}

def C9res : List AiVar.ThreadTasks × AiVar.Mgr Int :=
  (AiVar.get_tasks C9mgr).getD ([], C9mgr)

/-- C9 at a concrete manager: one worker, three pending depths; the two
batches handed out hold the depth-0 and depth-1 nodes and never the
depth-2 leaf. -/
theorem C9_get_tasks_skips_deepest_bucket_witness :
    AiVar.get_tasks C9mgr = some (C9res.1, C9res.2) ∧
    ∀ th ∈ C9res.1, ∀ b ∈ th.tasks,
      b.depth + 1 < C9mgr.pending_depths.length ∧
      ∀ n ∈ b.nodes,
        n ∈ (C9mgr.pending_depths.getD b.depth {}).tasks.map NodeValue.node :=
  ⟨by rfl, C9_get_tasks_skips_deepest_bucket C9mgr (by rfl)⟩
